import Mathlib

/-
Verification of the OpenSTA timing-search core (Search.cc) against its
natural-language specification.

The development shallowly embeds the value-level behavior of the search
functions.  Delay values are modelled as exact integers; the fuzzy
floating-point comparisons (Fuzzy.hh / Delay.hh, which are not part of the
sources under verification) are modelled from the spec with the tolerance
degenerated to exact comparison, so "differs by more than the fuzzy-equal
tolerance" reads "differs".  Pointer-interned objects (Tag, ClkInfo,
TagGroup) are modelled by structural keys in an indexed pool.
-/

set_option autoImplicit false

/-- Delay / arrival values.  `Arrival` in the source is a (possibly
min/max-corner) float; modelled as an exact integer. -/
abbrev Arrival := Int

/-- The min/max path direction of a path analysis point
(`MinMax` in the source). -/
inductive MinMaxDir where
  | mmMin
  | mmMax
deriving DecidableEq, Repr

/-- `MinMax::opposite()`. -/
def MinMaxDir.opposite : MinMaxDir → MinMaxDir
  | .mmMin => .mmMax
  | .mmMax => .mmMin

/-- Modelled from the spec: `delayFuzzyGreater(x, y, min_max)` (Delay.hh, not
under the verified sources) is "x is worse than y in the search direction":
strictly greater for the max corner, strictly smaller for the min corner,
with the fuzzy tolerance degenerated to exact comparison. -/
def delayFuzzyGreater (x y : Arrival) (mm : MinMaxDir) : Bool :=
  match mm with
  | .mmMax => decide (y < x)
  | .mmMin => decide (x < y)

/-- Modelled from the spec: `delayFuzzyEqual` (Delay.hh), tolerance
degenerated to exact equality. -/
def delayFuzzyEqual (x y : Arrival) : Bool :=
  decide (x = y)

/-- Identity of a path tag as used by the arrival merge: `core` stands for
the tag fields apart from the CRPR clock-path anchor (transition, path
analysis point index, clock info sans CRPR anchor, flags, exception states)
and `crprPin` for the CRPR clock-path anchor carried by the tag's ClkInfo.
Full structural tag equality is equality of both fields; the "tag match
ignoring the CRPR anchor" used by the shadow builder is equality of `core`
alone. -/
structure PathTag where
  core : Nat
  crprPin : Option Nat
deriving DecidableEq, Repr

/-- A `TagGroupBldr` arrival map: association list from tag to the arrival
currently stored for that tag (TagGroup.hh; the builder is keyed on full
structural tag equality). -/
abbrev TagBldr := List (PathTag × Arrival)

/-- `TagGroupBldr::tagArrival` lookup: the arrival stored for a tag, by full
structural tag equality. -/
def bldrArrival : TagBldr → PathTag → Option Arrival
  | [], _ => none
  | (k, a) :: rest, t => if k = t then some a else bldrArrival rest t

/-- `TagGroupBldr::setMatchArrival`: overwrite the slot of the matching tag,
or insert a new slot when no tag matches. -/
def setArrival : TagBldr → PathTag → Arrival → TagBldr
  | [], t, a => [(t, a)]
  | (k, a0) :: rest, t, a =>
    if k = t then (t, a) :: rest else (k, a0) :: setArrival rest t a

/-- Lookup in the CRPR shadow builder (`tag_bldr_no_crpr_`), which matches
tags ignoring the CRPR clock-path anchor (`core` equality only). -/
def bldrArrivalNoCrpr : TagBldr → PathTag → Option Arrival
  | [], _ => none
  | (k, a) :: rest, t => if k.core = t.core then some a else bldrArrivalNoCrpr rest t

/-- `setMatchArrival` on the shadow builder: the matching slot's tag is
replaced by the new tag (they may differ in the CRPR anchor). -/
def setArrivalNoCrpr : TagBldr → PathTag → Arrival → TagBldr
  | [], t, a => [(t, a)]
  | (k, a0) :: rest, t, a =>
    if k.core = t.core then (t, a) :: rest else (k, a0) :: setArrivalNoCrpr rest t a

/-- The pair of builders owned by one `ArrivalVisitor`: `tag_bldr_` and the
CRPR shadow `tag_bldr_no_crpr_`. -/
structure ArrivalBldrs where
  main : TagBldr
  noCrpr : TagBldr
deriving DecidableEq, Repr

/-- The shadow-builder update of `ArrivalVisitor::visitFromToPath`
(the `crpr_active_ && !has_fanin_one_ && to_clk_info->hasCrprClkPin()
&& !to_is_clk` block). -/
def updateNoCrpr (crprActive hasFaninOne : Bool) (toTag : PathTag)
    (toIsClk hasCrprClkPin : Bool) (toArrival : Arrival) (mm : MinMaxDir)
    (nc : TagBldr) : TagBldr :=
  if crprActive && !hasFaninOne && hasCrprClkPin && !toIsClk then
    match bldrArrivalNoCrpr nc toTag with
    | none => setArrivalNoCrpr nc toTag toArrival
    | some arrival =>
      if delayFuzzyGreater toArrival arrival mm then
        setArrivalNoCrpr nc toTag toArrival
      else nc
  else nc

/-- One admitted fanin candidate arriving at `ArrivalVisitor::visitFromToPath`:
the mutated outgoing tag `to_tag`, the candidate arrival
`to_arrival = from_arrival + arc_delay`, the tag's clock flag, whether its
clock info carries a CRPR clock pin, and the analysis point's direction. -/
structure ArrivalCand where
  toTag : PathTag
  toArrival : Arrival
  toIsClk : Bool
  hasCrprClkPin : Bool
  minMax : MinMaxDir
deriving DecidableEq, Repr

/-- `ArrivalVisitor::visitFromToPath`: look the outgoing tag up in the
builder; insert when absent, overwrite when the candidate arrival is worse
(`delayFuzzyGreater` in the path's min/max direction) than the stored one,
and otherwise leave the builders untouched.  The shadow builder is updated
under the same comparison when CRPR pruning is active. -/
def visitFromToPath (crprActive hasFaninOne : Bool) (toTag : PathTag)
    (toIsClk hasCrprClkPin : Bool) (toArrival : Arrival) (mm : MinMaxDir)
    (bs : ArrivalBldrs) : ArrivalBldrs :=
  match bldrArrival bs.main toTag with
  | none =>
    { main := setArrival bs.main toTag toArrival
      noCrpr := updateNoCrpr crprActive hasFaninOne toTag toIsClk hasCrprClkPin
        toArrival mm bs.noCrpr }
  | some arrival =>
    if delayFuzzyGreater toArrival arrival mm then
      { main := setArrival bs.main toTag toArrival
        noCrpr := updateNoCrpr crprActive hasFaninOne toTag toIsClk hasCrprClkPin
          toArrival mm bs.noCrpr }
    else bs

/-- Draining all admitted fanin edges of a vertex: fold
`visitFromToPath` over the candidate list, starting from the freshly
initialized (empty) builders (`TagGroupBldr::init`). -/
def drainFanins (crprActive hasFaninOne : Bool) (cands : List ArrivalCand) :
    ArrivalBldrs :=
  cands.foldl
    (fun bs c =>
      visitFromToPath crprActive hasFaninOne c.toTag c.toIsClk c.hasCrprClkPin
        c.toArrival c.minMax bs)
    ⟨[], []⟩

/-- The per-slot reduction: keep the worse of two arrivals, i.e. the larger
in the max corner and the smaller in the min corner. -/
def worstArrival (mm : MinMaxDir) (x y : Arrival) : Arrival :=
  match mm with
  | .mmMax => max x y
  | .mmMin => min x y

/-- Reduction of the stored slot value by one more candidate, as performed
by `visitFromToPath` on the matching slot. -/
def mergeStep (mm : MinMaxDir) (o : Option Arrival) (x : Arrival) : Option Arrival :=
  match o with
  | none => some x
  | some b => if delayFuzzyGreater x b mm then some x else some b

/-- The worse-value reduction of a whole candidate list (`none` when the
list is empty). -/
def worstOf (mm : MinMaxDir) : List Arrival → Option Arrival
  | [] => none
  | a :: rest => some (rest.foldl (worstArrival mm) a)

/-- The candidate arrivals that mapped to tag `t`. -/
def candArrivals (t : PathTag) (cands : List ArrivalCand) : List Arrival :=
  (cands.filter (fun c => c.toTag = t)).map (fun c => c.toArrival)

theorem bldrArrival_setArrival (b : TagBldr) (t t' : PathTag) (a : Arrival) :
    bldrArrival (setArrival b t a) t' =
      if t' = t then some a else bldrArrival b t' := by
  induction b with
  | nil =>
    by_cases h : t' = t
    · simp [setArrival, bldrArrival, h]
    · simp [setArrival, bldrArrival, h, Ne.symm h]
  | cons kv rest ih =>
    obtain ⟨k, a0⟩ := kv
    simp only [setArrival]
    by_cases hk : k = t
    · subst hk
      simp only [if_pos rfl, bldrArrival]
      by_cases h : k = t'
      · subst h
        simp
      · simp [h, Ne.symm h]
    · simp only [if_neg hk, bldrArrival]
      by_cases hkt : k = t'
      · subst hkt
        simp [hk]
      · simp [hkt, ih]

theorem visitFromToPath_main (crprActive hasFaninOne : Bool) (toTag : PathTag)
    (toIsClk hasCrprClkPin : Bool) (toArrival : Arrival) (mm : MinMaxDir)
    (bs : ArrivalBldrs) (t : PathTag) :
    bldrArrival (visitFromToPath crprActive hasFaninOne toTag toIsClk
        hasCrprClkPin toArrival mm bs).main t =
      if t = toTag then mergeStep mm (bldrArrival bs.main toTag) toArrival
      else bldrArrival bs.main t := by
  unfold visitFromToPath
  cases hfind : bldrArrival bs.main toTag with
  | none =>
    simp [mergeStep, bldrArrival_setArrival]
  | some b =>
    simp only [mergeStep]
    by_cases hgt : delayFuzzyGreater toArrival b mm
    · simp [if_pos hgt, bldrArrival_setArrival, hgt]
    · simp only [if_neg hgt]
      by_cases h : t = toTag
      · subst h
        simp [hfind, hgt]
      · simp [h]

theorem mergeStep_some (mm : MinMaxDir) (b x : Arrival) :
    mergeStep mm (some b) x = some (worstArrival mm b x) := by
  cases mm with
  | mmMax =>
    by_cases h : b < x
    · simp [mergeStep, delayFuzzyGreater, worstArrival, h, max_eq_right (le_of_lt h)]
    · simp [mergeStep, delayFuzzyGreater, worstArrival, h,
        max_eq_left (Int.not_lt.mp h)]
  | mmMin =>
    by_cases h : x < b
    · simp [mergeStep, delayFuzzyGreater, worstArrival, h, min_eq_right (le_of_lt h)]
    · simp [mergeStep, delayFuzzyGreater, worstArrival, h,
        min_eq_left (Int.not_lt.mp h)]

theorem foldl_mergeStep_some (mm : MinMaxDir) :
    ∀ (l : List Arrival) (b : Arrival),
      l.foldl (mergeStep mm) (some b) = some (l.foldl (worstArrival mm) b) := by
  intro l
  induction l with
  | nil => intro b; rfl
  | cons x rest ih => intro b; simp [List.foldl_cons, mergeStep_some, ih]

theorem foldl_mergeStep_none (mm : MinMaxDir) (l : List Arrival) :
    l.foldl (mergeStep mm) none = worstOf mm l := by
  cases l with
  | nil => rfl
  | cons a rest =>
    simp [List.foldl_cons, worstOf, mergeStep, foldl_mergeStep_some]

theorem candArrivals_cons (t : PathTag) (c : ArrivalCand) (cands : List ArrivalCand) :
    candArrivals t (c :: cands) =
      if c.toTag = t then c.toArrival :: candArrivals t cands
      else candArrivals t cands := by
  by_cases h : c.toTag = t <;> simp [candArrivals, List.filter_cons, h]

theorem drainFanins_go (crprActive hasFaninOne : Bool) (mmOf : PathTag → MinMaxDir) :
    ∀ (cands : List ArrivalCand) (bs : ArrivalBldrs) (t : PathTag),
      (∀ c ∈ cands, c.minMax = mmOf c.toTag) →
      bldrArrival
        (cands.foldl
          (fun bs c =>
            visitFromToPath crprActive hasFaninOne c.toTag c.toIsClk
              c.hasCrprClkPin c.toArrival c.minMax bs) bs).main t =
        (candArrivals t cands).foldl (mergeStep (mmOf t)) (bldrArrival bs.main t) := by
  intro cands
  induction cands with
  | nil =>
    intro bs t _
    simp [candArrivals]
  | cons c rest ih =>
    intro bs t hmm
    have hc : c.minMax = mmOf c.toTag := hmm c (List.mem_cons_self c rest)
    have hrest : ∀ c' ∈ rest, c'.minMax = mmOf c'.toTag :=
      fun c' h => hmm c' (List.mem_cons_of_mem c h)
    rw [List.foldl_cons, ih _ t hrest, candArrivals_cons]
    rw [visitFromToPath_main]
    by_cases h : c.toTag = t
    · subst h
      simp [hc]
    · have ht : ¬t = c.toTag := fun hh => h hh.symm
      rw [if_neg h, if_neg ht]

theorem drainFanins_worst (crprActive hasFaninOne : Bool)
    (mmOf : PathTag → MinMaxDir) (cands : List ArrivalCand)
    (hmm : ∀ c ∈ cands, c.minMax = mmOf c.toTag) (t : PathTag) :
    bldrArrival (drainFanins crprActive hasFaninOne cands).main t =
      worstOf (mmOf t) (candArrivals t cands) := by
  unfold drainFanins
  rw [drainFanins_go crprActive hasFaninOne mmOf cands ⟨[], []⟩ t hmm]
  simp [bldrArrival, foldl_mergeStep_none]

theorem foldl_worstArrival_mem (mm : MinMaxDir) :
    ∀ (l : List Arrival) (b : Arrival),
      l.foldl (worstArrival mm) b = b ∨ l.foldl (worstArrival mm) b ∈ l := by
  intro l
  induction l with
  | nil => intro b; left; rfl
  | cons x rest ih =>
    intro b
    rw [List.foldl_cons]
    rcases ih (worstArrival mm b x) with h | h
    · rw [h]
      cases mm with
      | mmMax =>
        rcases max_choice b x with hm | hm
        · left; simpa [worstArrival] using hm
        · right; simp [worstArrival, hm]
      | mmMin =>
        rcases min_choice b x with hm | hm
        · left; simpa [worstArrival] using hm
        · right; simp [worstArrival, hm]
    · right; exact List.mem_cons_of_mem x h

theorem foldl_worstArrival_bounds (mm : MinMaxDir) :
    ∀ (l : List Arrival) (b : Arrival),
      ((mm = .mmMax → b ≤ l.foldl (worstArrival mm) b)
        ∧ (mm = .mmMin → l.foldl (worstArrival mm) b ≤ b))
      ∧ ∀ x ∈ l,
          (mm = .mmMax → x ≤ l.foldl (worstArrival mm) b)
          ∧ (mm = .mmMin → l.foldl (worstArrival mm) b ≤ x) := by
  intro l
  induction l with
  | nil =>
    intro b
    exact ⟨⟨fun _ => le_refl b, fun _ => le_refl b⟩, by simp⟩
  | cons x rest ih =>
    intro b
    rw [List.foldl_cons]
    obtain ⟨⟨hmaxb, hminb⟩, hrest⟩ := ih (worstArrival mm b x)
    refine ⟨⟨?_, ?_⟩, ?_⟩
    · intro h
      subst h
      exact le_trans (le_max_left b x) (hmaxb rfl)
    · intro h
      subst h
      exact le_trans (hminb rfl) (min_le_left b x)
    · intro y hy
      rcases List.mem_cons.mp hy with hy | hy
      · subst hy
        constructor
        · intro h
          subst h
          exact le_trans (le_max_right b y) (hmaxb rfl)
        · intro h
          subst h
          exact le_trans (hminb rfl) (min_le_right b y)
      · exact hrest y hy

theorem worstOf_spec (mm : MinMaxDir) (l : List Arrival) (w : Arrival)
    (hw : worstOf mm l = some w) :
    w ∈ l ∧ ∀ x ∈ l, (mm = .mmMax → x ≤ w) ∧ (mm = .mmMin → w ≤ x) := by
  cases l with
  | nil => simp [worstOf] at hw
  | cons a rest =>
    simp only [worstOf, Option.some.injEq] at hw
    subst hw
    constructor
    · rcases foldl_worstArrival_mem mm rest a with h | h
      · rw [h]; exact List.mem_cons_self a rest
      · exact List.mem_cons_of_mem a h
    · intro x hx
      obtain ⟨⟨hmaxb, hminb⟩, hrest⟩ := foldl_worstArrival_bounds mm rest a
      rcases List.mem_cons.mp hx with hx | hx
      · subst hx
        exact ⟨hmaxb, hminb⟩
      · exact hrest x hx

/-- C1: in `ArrivalVisitor::visitFromToPath` the builder slot matching the
mutated outgoing tag `to_tag` is updated iff no matching tag is present yet
or the candidate arrival is worse than the stored arrival in the path's
min/max direction (`delayFuzzyGreater`: greater for the max corner, smaller
for the min corner); the builders are left untouched otherwise.  Hence,
after all admitted fanin candidates of a vertex are drained, the stored
arrival for each tag equals the max (max corner) / min (min corner) of the
candidate arrivals that mapped to that tag. -/
theorem claim1_arrival_merge
    (crprActive hasFaninOne : Bool) (bs : ArrivalBldrs) (toTag : PathTag)
    (toIsClk hasCrprClkPin : Bool) (toArrival : Arrival) (mm : MinMaxDir)
    (cands : List ArrivalCand) (mmOf : PathTag → MinMaxDir)
    (hmm : ∀ c ∈ cands, c.minMax = mmOf c.toTag)
    (t : PathTag) (w : Arrival)
    (hw : worstOf (mmOf t) (candArrivals t cands) = some w) :
    bldrArrival (visitFromToPath crprActive hasFaninOne toTag toIsClk
        hasCrprClkPin toArrival mm bs).main toTag
      = mergeStep mm (bldrArrival bs.main toTag) toArrival
    ∧ (∀ b, bldrArrival bs.main toTag = some b →
        delayFuzzyGreater toArrival b mm = false →
        visitFromToPath crprActive hasFaninOne toTag toIsClk hasCrprClkPin
          toArrival mm bs = bs)
    ∧ bldrArrival (drainFanins crprActive hasFaninOne cands).main t
        = worstOf (mmOf t) (candArrivals t cands)
    ∧ w ∈ candArrivals t cands
    ∧ (∀ x ∈ candArrivals t cands,
        (mmOf t = .mmMax → x ≤ w) ∧ (mmOf t = .mmMin → w ≤ x)) := by
  obtain ⟨hwmem, hwbound⟩ := worstOf_spec (mmOf t) (candArrivals t cands) w hw
  refine ⟨?_, ?_, drainFanins_worst crprActive hasFaninOne mmOf cands hmm t,
    hwmem, hwbound⟩
  · rw [visitFromToPath_main]
    simp
  · intro b hb hlt
    unfold visitFromToPath
    rw [hb]
    simp [hlt]

/-- Witness for C1 at a concrete input: candidates 2 and 7 for one tag in
the max corner merge to the stored arrival 7; a candidate that is not worse
than the stored slot leaves the builders untouched. -/
theorem claim1_arrival_merge_witness :
    bldrArrival (visitFromToPath false false ⟨0, none⟩ false false 3 .mmMax
        ⟨[(⟨0, none⟩, 5)], []⟩).main ⟨0, none⟩
      = mergeStep .mmMax (bldrArrival [(⟨0, none⟩, 5)] ⟨0, none⟩) 3
    ∧ (∀ b, bldrArrival [(⟨0, none⟩, (5 : Arrival))] ⟨0, none⟩ = some b →
        delayFuzzyGreater 3 b .mmMax = false →
        visitFromToPath false false ⟨0, none⟩ false false 3 .mmMax
          ⟨[(⟨0, none⟩, 5)], []⟩ = ⟨[(⟨0, none⟩, 5)], []⟩)
    ∧ bldrArrival (drainFanins false false
        [⟨⟨1, none⟩, 2, false, false, .mmMax⟩,
         ⟨⟨1, none⟩, 7, false, false, .mmMax⟩]).main ⟨1, none⟩
        = worstOf .mmMax (candArrivals ⟨1, none⟩
            [⟨⟨1, none⟩, 2, false, false, .mmMax⟩,
             ⟨⟨1, none⟩, 7, false, false, .mmMax⟩])
    ∧ (7 : Arrival) ∈ candArrivals ⟨1, none⟩
        [⟨⟨1, none⟩, 2, false, false, .mmMax⟩,
         ⟨⟨1, none⟩, 7, false, false, .mmMax⟩]
    ∧ (∀ x ∈ candArrivals ⟨1, none⟩
        [⟨⟨1, none⟩, 2, false, false, .mmMax⟩,
         ⟨⟨1, none⟩, 7, false, false, .mmMax⟩],
        (MinMaxDir.mmMax = .mmMax → x ≤ 7)
        ∧ (MinMaxDir.mmMax = .mmMin → (7 : Arrival) ≤ x)) :=
  claim1_arrival_merge false false ⟨[(⟨0, none⟩, 5)], []⟩ ⟨0, none⟩ false false
    3 .mmMax
    [⟨⟨1, none⟩, 2, false, false, .mmMax⟩, ⟨⟨1, none⟩, 7, false, false, .mmMax⟩]
    (fun _ => .mmMax) (by decide) ⟨1, none⟩ 7 (by decide)

/-- The kind flags of an `ExceptionPath` relevant to tag mutation. -/
structure ExcPath where
  isFalse : Bool
  isLoop : Bool
deriving DecidableEq, Repr

/-- An `ExceptionState`: the exception it belongs to plus the cursor of
-thru matchers still to be satisfied (`remThrus`); the cursor having
reached the end is `isComplete`. -/
structure ExceptionState where
  exc : ExcPath
  remThrus : List Nat
deriving DecidableEq, Repr

/-- `ExceptionState::isComplete`. -/
def ExceptionState.isComplete (s : ExceptionState) : Bool :=
  s.remThrus.isEmpty

/-- `ExceptionState::matchesNextThru(from, to, tr, min_max)`: the oracle `f`
answers whether a given -thru matcher fires on the edge of the current
`mutateTag` call; a complete state has no next -thru and never matches. -/
def matchesNextThru (f : Nat → Bool) (s : ExceptionState) : Bool :=
  match s.remThrus with
  | [] => false
  | th :: _ => f th

/-- `ExceptionState::nextState()`: advance the cursor by one -thru. -/
def ExceptionState.nextState (s : ExceptionState) : ExceptionState :=
  ⟨s.exc, s.remThrus.tail⟩

/-- `while (state->matchesNextThru(..)) state = state->nextState();` on the
cursor list: one edge may satisfy several consecutive hierarchical -thrus. -/
def advanceThrus (f : Nat → Bool) : List Nat → List Nat
  | [] => []
  | th :: rest => if f th then advanceThrus f rest else th :: rest

/-- The advanced exception state after the matches-next-thru loop. -/
def advanceState (f : Nat → Bool) (s : ExceptionState) : ExceptionState :=
  ⟨s.exc, advanceThrus f s.remThrus⟩

/-- A `Tag`: transition, path analysis point index, ClkInfo, clock flag,
input delay, segment-start flag and exception state set (Tag.hh). -/
structure Tag where
  trans : Nat
  pathAPIndex : Nat
  clkInfo : Nat
  isClk : Bool
  inputDelay : Option Nat
  isSegmentStart : Bool
  states : Option (List ExceptionState)
deriving DecidableEq, Repr

/-- The value of the tag `Search::findTag` returns: interning (pointer
identity) is modelled separately by the tag pool; at value level `findTag`
yields the tag with the given fields. -/
def findTagVal (trans pathAPIndex clkInfo : Nat) (isClk : Bool)
    (inputDelay : Option Nat) (isSegmentStart : Bool)
    (states : Option (List ExceptionState)) : Tag :=
  ⟨trans, pathAPIndex, clkInfo, isClk, inputDelay, isSegmentStart, states⟩

/-- First pass of `Search::mutateTag` over the from-tag's states: detect a
kill (a complete false path on a non-clock from-tag, or a -thru match that
completes a loop) or a pending state change, postponing the state-set copy.
`none` means the path is killed. -/
def firstPass (f : Nat → Bool) (fromIsClk toIsRegClk : Bool) :
    List ExceptionState → Option Bool
  | [] => some false
  | s :: rest =>
    if s.isComplete && s.exc.isFalse && !fromIsClk then none
    else if matchesNextThru f s then
      if s.nextState.isComplete && s.exc.isLoop then none
      else some true
    else if toIsRegClk && s.exc.isLoop then some true
    else firstPass f fromIsClk toIsRegClk rest

/-- Second pass of `Search::mutateTag`: apply the state changes, killing the
path on a complete false path (non-clock from-tag) or a completed loop, and
dropping loop states at register clock pins.  `none` means killed. -/
def secondPass (f : Nat → Bool) (fromIsClk toIsRegClk : Bool) :
    List ExceptionState → Option (List ExceptionState)
  | [] => some []
  | s :: rest =>
    if s.isComplete && s.exc.isFalse && !fromIsClk then none
    else
      let s2 := advanceState f s
      if s2.isComplete && s.exc.isLoop then none
      else
        match secondPass f fromIsClk toIsRegClk rest with
        | none => none
        | some acc =>
          some (if toIsRegClk && s.exc.isLoop then acc else s2 :: acc)

/-- The tail of `Search::mutateTag` when no exception state changed and no
new -thru states start on the edge: reuse the from-tag when every other tag
component is unchanged, otherwise intern a tag with the from-tag's states. -/
def mutateTagNoChange (fromTag : Tag) (fromTr : Nat) (fromIsClk : Bool)
    (fromClkInfo : Nat) (toTr : Nat) (toIsClk toIsSegmentStart : Bool)
    (toClkInfo : Nat) (toInputDelay : Option Nat) (pathAP : Nat) : Option Tag :=
  if toClkInfo = fromClkInfo ∧ toTr = fromTr ∧ toIsClk = fromIsClk
      ∧ fromTag.isSegmentStart = toIsSegmentStart
      ∧ fromTag.inputDelay = toInputDelay then
    some fromTag
  else
    some (findTagVal toTr pathAP toClkInfo toIsClk toInputDelay toIsSegmentStart
      fromTag.states)

/-- `Search::mutateTag`: derive the outgoing tag for a path going from
`fromTag` through the current edge.  `f` is the matches-next-thru oracle
for this edge, `thruStates` the set of -thru exception states starting on
this edge (`Sdc::exceptionThruStates`).  `none` kills the path. -/
def mutateTag (f : Nat → Bool) (thruStates : Option (List ExceptionState))
    (fromTag : Tag) (fromTr : Nat) (fromIsClk : Bool) (fromClkInfo : Nat)
    (toTr : Nat) (toIsClk toIsRegClk toIsSegmentStart : Bool)
    (toClkInfo : Nat) (toInputDelay : Option Nat) (pathAP : Nat) : Option Tag :=
  match fromTag.states with
  | some fromStates =>
    match firstPass f fromIsClk toIsRegClk fromStates with
    | none => none
    | some stateChange =>
      if thruStates.isSome || stateChange then
        match secondPass f fromIsClk toIsRegClk fromStates with
        | none => none
        | some newStates =>
          some (findTagVal toTr pathAP toClkInfo toIsClk fromTag.inputDelay
            toIsSegmentStart (some (thruStates.getD [] ++ newStates)))
      else
        mutateTagNoChange fromTag fromTr fromIsClk fromClkInfo toTr toIsClk
          toIsSegmentStart toClkInfo toInputDelay pathAP
  | none =>
    match thruStates with
    | some newStates =>
      some (findTagVal toTr pathAP toClkInfo toIsClk fromTag.inputDelay
        toIsSegmentStart (some newStates))
    | none =>
      mutateTagNoChange fromTag fromTr fromIsClk fromClkInfo toTr toIsClk
        toIsSegmentStart toClkInfo toInputDelay pathAP

theorem firstPass_complete_false (f : Nat → Bool) (toIsRegClk : Bool) :
    ∀ (l : List ExceptionState),
      (∃ s ∈ l, s.isComplete = true ∧ s.exc.isFalse = true) →
      firstPass f false toIsRegClk l = none ∨ firstPass f false toIsRegClk l = some true := by
  intro l
  induction l with
  | nil => rintro ⟨s, hs, _⟩; exact absurd hs (List.not_mem_nil s)
  | cons s rest ih =>
    rintro ⟨w, hw, hwc, hwf⟩
    unfold firstPass
    by_cases h1 : (s.isComplete && s.exc.isFalse && !false) = true
    · left
      rw [if_pos h1]
    · rw [if_neg h1]
      by_cases h2 : matchesNextThru f s = true
      · rw [if_pos h2]
        by_cases h3 : (s.nextState.isComplete && s.exc.isLoop) = true
        · left; rw [if_pos h3]
        · right; rw [if_neg h3]
      · rw [if_neg h2]
        by_cases h4 : (toIsRegClk && s.exc.isLoop) = true
        · right; rw [if_pos h4]
        · rw [if_neg h4]
          rcases List.mem_cons.mp hw with hws | hwr
          · subst hws
            simp [hwc, hwf] at h1
          · exact ih ⟨w, hwr, hwc, hwf⟩

theorem secondPass_complete_false (f : Nat → Bool) (toIsRegClk : Bool) :
    ∀ (l : List ExceptionState),
      (∃ s ∈ l, s.isComplete = true ∧ s.exc.isFalse = true) →
      secondPass f false toIsRegClk l = none := by
  intro l
  induction l with
  | nil => rintro ⟨s, hs, _⟩; exact absurd hs (List.not_mem_nil s)
  | cons s rest ih =>
    rintro ⟨w, hw, hwc, hwf⟩
    unfold secondPass
    by_cases h1 : (s.isComplete && s.exc.isFalse && !false) = true
    · rw [if_pos h1]
    · rw [if_neg h1]
      by_cases h2 : ((advanceState f s).isComplete && s.exc.isLoop) = true
      · simp only [h2, if_true]
      · simp only [h2, if_false]
        rcases List.mem_cons.mp hw with hws | hwr
        · subst hws
          simp [hwc, hwf] at h1
        · rw [ih ⟨w, hwr, hwc, hwf⟩]
          simp

theorem firstPass_clock_no_loop (f : Nat → Bool) (toIsRegClk : Bool) :
    ∀ (l : List ExceptionState),
      (∀ s ∈ l, s.exc.isLoop = false) →
      ∃ sc, firstPass f true toIsRegClk l = some sc := by
  intro l
  induction l with
  | nil => intro _; exact ⟨false, rfl⟩
  | cons s rest ih =>
    intro hno
    have hs : s.exc.isLoop = false := hno s (List.mem_cons_self s rest)
    unfold firstPass
    simp only [Bool.not_true, Bool.and_false, Bool.false_eq_true, if_false]
    by_cases h2 : matchesNextThru f s = true
    · rw [if_pos h2]
      simp [hs]
    · rw [if_neg h2]
      simp only [hs, Bool.and_false, Bool.false_eq_true, if_false]
      exact ih (fun s' h => hno s' (List.mem_cons_of_mem s h))

theorem secondPass_clock_no_loop (f : Nat → Bool) (toIsRegClk : Bool) :
    ∀ (l : List ExceptionState),
      (∀ s ∈ l, s.exc.isLoop = false) →
      secondPass f true toIsRegClk l = some (l.map (advanceState f)) := by
  intro l
  induction l with
  | nil => intro _; rfl
  | cons s rest ih =>
    intro hno
    have hs : s.exc.isLoop = false := hno s (List.mem_cons_self s rest)
    unfold secondPass
    simp only [Bool.not_true, Bool.and_false, Bool.false_eq_true, if_false]
    rw [ih (fun s' h => hno s' (List.mem_cons_of_mem s h))]
    simp [hs]

theorem advanceState_of_complete (f : Nat → Bool) (s : ExceptionState)
    (h : s.isComplete = true) : advanceState f s = s := by
  obtain ⟨e, thrus⟩ := s
  cases thrus with
  | nil => rfl
  | cons th rest => simp [ExceptionState.isComplete, List.isEmpty] at h

theorem mutateTagNoChange_states (fromTag : Tag) (fromTr : Nat)
    (fromIsClk : Bool) (fromClkInfo : Nat) (toTr : Nat)
    (toIsClk toIsSegmentStart : Bool) (toClkInfo : Nat)
    (toInputDelay : Option Nat) (pathAP : Nat) :
    ∃ t, mutateTagNoChange fromTag fromTr fromIsClk fromClkInfo toTr toIsClk
        toIsSegmentStart toClkInfo toInputDelay pathAP = some t
      ∧ t.states = fromTag.states := by
  unfold mutateTagNoChange
  by_cases h : toClkInfo = fromClkInfo ∧ toTr = fromTr ∧ toIsClk = fromIsClk
      ∧ fromTag.isSegmentStart = toIsSegmentStart
      ∧ fromTag.inputDelay = toInputDelay
  · rw [if_pos h]
    exact ⟨fromTag, rfl, rfl⟩
  · rw [if_neg h]
    exact ⟨_, rfl, rfl⟩

/-- C2: `Search::mutateTag` kills the path (returns no outgoing tag)
whenever the from-tag carries a complete false-path exception state and the
from-tag is not a clock tag; when the from-tag is a clock tag the completed
false-path state does not kill the path and is carried forward into the
outgoing tag's state set, so only downstream data paths are killed, never
the clock carrier.  (The clock-tag scenario excludes loop exceptions, which
may kill a path for their own, independent reason.) -/
theorem claim2_mutateTag_completed_false_path
    (f : Nat → Bool) (thruStates : Option (List ExceptionState))
    (fromTag : Tag) (fromTr fromClkInfo toTr : Nat)
    (toIsClk toIsRegClk toIsSegmentStart : Bool) (toClkInfo : Nat)
    (toInputDelay : Option Nat) (pathAP : Nat)
    (l : List ExceptionState) (hstates : fromTag.states = some l)
    (hkill : ∃ s ∈ l, s.isComplete = true ∧ s.exc.isFalse = true)
    (g : Nat → Bool) (thruStatesB : Option (List ExceptionState))
    (fromTagB : Tag) (fromTrB fromClkInfoB toTrB : Nat)
    (toIsClkB toIsRegClkB toIsSegmentStartB : Bool) (toClkInfoB : Nat)
    (toInputDelayB : Option Nat) (pathAPB : Nat)
    (lB : List ExceptionState) (hstatesB : fromTagB.states = some lB)
    (hnoloop : ∀ s ∈ lB, s.exc.isLoop = false) :
    mutateTag f thruStates fromTag fromTr false fromClkInfo toTr toIsClk
        toIsRegClk toIsSegmentStart toClkInfo toInputDelay pathAP = none
    ∧ ∃ t, mutateTag g thruStatesB fromTagB fromTrB true fromClkInfoB toTrB
          toIsClkB toIsRegClkB toIsSegmentStartB toClkInfoB toInputDelayB
          pathAPB = some t
        ∧ ∀ s ∈ lB, s.isComplete = true → s.exc.isFalse = true →
            s ∈ t.states.getD [] := by
  constructor
  · unfold mutateTag
    simp only [hstates]
    rcases firstPass_complete_false f toIsRegClk l hkill with hfp | hfp
    · simp [hfp]
    · simp [hfp, secondPass_complete_false f toIsRegClk l hkill]
  · obtain ⟨sc, hfp⟩ := firstPass_clock_no_loop g toIsRegClkB lB hnoloop
    have hsp := secondPass_clock_no_loop g toIsRegClkB lB hnoloop
    unfold mutateTag
    simp only [hstatesB, hfp, hsp]
    by_cases hif : (thruStatesB.isSome || sc) = true
    · rw [if_pos hif]
      refine ⟨_, rfl, ?_⟩
      intro s hs hcomp _
      simp only [findTagVal, Option.getD_some]
      refine List.mem_append_right _ ?_
      have hadv : advanceState g s = s := advanceState_of_complete g s hcomp
      exact hadv ▸ List.mem_map_of_mem (advanceState g) hs
    · rw [if_neg hif]
      obtain ⟨t, ht, hts⟩ := mutateTagNoChange_states fromTagB fromTrB true
        fromClkInfoB toTrB toIsClkB toIsSegmentStartB toClkInfoB toInputDelayB
        pathAPB
      refine ⟨t, ht, ?_⟩
      intro s hs _ _
      rw [hts, hstatesB]
      simpa using hs

/-- Witness for C2 at concrete inputs: a complete false-path state kills a
non-clock path, while a clock tag carries the completed state forward. -/
theorem claim2_mutateTag_completed_false_path_witness :
    mutateTag (fun _ => false) none
        ⟨0, 0, 0, false, none, false, some [⟨⟨true, false⟩, []⟩]⟩
        0 false 0 0 false false false 0 none 0 = none
    ∧ ∃ t, mutateTag (fun _ => false) none
          ⟨0, 0, 0, true, none, false, some [⟨⟨true, false⟩, []⟩]⟩
          0 true 0 0 false false false 0 none 0 = some t
        ∧ ∀ s ∈ [(⟨⟨true, false⟩, []⟩ : ExceptionState)],
            s.isComplete = true → s.exc.isFalse = true →
            s ∈ t.states.getD [] :=
  claim2_mutateTag_completed_false_path (fun _ => false) none
    ⟨0, 0, 0, false, none, false, some [⟨⟨true, false⟩, []⟩]⟩
    0 0 0 false false false 0 none 0
    [⟨⟨true, false⟩, []⟩] rfl (by decide)
    (fun _ => false) none
    ⟨0, 0, 0, true, none, false, some [⟨⟨true, false⟩, []⟩]⟩
    0 0 0 false false false 0 none 0
    [⟨⟨true, false⟩, []⟩] rfl (by decide)

/-- The per-vertex search state owned by the core: the interned tag group's
arrival map (standing for `tag_group_index`; `none` models the
`tag_group_index_max` sentinel, i.e. no tag group), the arrival array and
the optional prev-path array. -/
structure VertexState where
  tagGroup : Option (List (PathTag × Nat))
  arrivals : List Arrival
  prevPaths : Option (List (Option Nat))
deriving DecidableEq, Repr

/-- `Search::arrivalsChanged`: true when the vertex has no stored arrivals,
when the tag sets have different sizes, or when some stored tag is missing
from the builder or its builder arrival is not fuzzy-equal to the stored
arrival. -/
def arrivalsChanged (v : VertexState) (bldr : TagBldr) : Bool :=
  match v.tagGroup with
  | none => true
  | some amap =>
    if amap.length ≠ bldr.length then true
    else
      amap.any fun ti =>
        match bldrArrival bldr ti.1 with
        | none => true
        | some a2 => !delayFuzzyEqual (v.arrivals.getD ti.2 0) a2

/-- Slot assignment of a freshly interned tag group: tags in builder order
get consecutive arrival indices. -/
def indexMap : TagBldr → Nat → List (PathTag × Nat)
  | [], _ => []
  | (t, _) :: rest, i => (t, i) :: indexMap rest (i + 1)

/-- `Search::setVertexArrivals` at value level: an empty builder deletes the
vertex's paths; otherwise the vertex gets the interned tag group of the
builder, the builder's arrivals, and a prev-path array exactly when the
builder holds a clock or gen-clock-source tag.  (The source additionally
reuses the existing allocations when sizes match, which is invisible at
value level.) -/
def setVertexArrivals (_v : VertexState) (bldr : TagBldr)
    (hasClkOrGenClkSrcTag : Bool) : VertexState :=
  if bldr.isEmpty then ⟨none, [], none⟩
  else
    ⟨some (indexMap bldr 0), bldr.map Prod.snd,
      if hasClkOrGenClkSrcTag then some (bldr.map (fun _ => none)) else none⟩

/-- The inputs of one `ArrivalVisitor::visit` call: the SDC/netlist
predicates on the vertex's pin, and the tag builder contents as produced by
steps 1-4 of the visit (fanin merge, CRPR prune, vertex-local seeding). -/
structure VisitIn where
  isVertexPinClock : Bool
  isPathDelayInternalEndpoint : Bool
  bldr : TagBldr
  hasClkOrGenClkSrcTag : Bool
  isLatchData : Bool
  isRegClkPin : Bool
  arrivalsAtEndpointsExist : Bool
  alwaysToEndpoints : Bool
deriving DecidableEq, Repr

/-- The observable effects of one `ArrivalVisitor::visit` call. -/
structure SearchWorld where
  vertex : VertexState
  faninPathsVisited : Bool
  latchOutputsEnqueued : Bool
  fanoutsEnqueued : Bool
  tnsInvalidated : Bool
  requiredsInvalidated : Bool
  refPinDelaysEnqueued : Bool
deriving DecidableEq, Repr

/-- `ArrivalVisitor::visit`: clock-source pins that are not internal
path-delay endpoints are skipped entirely ("Don't clobber clock sources");
otherwise fanin paths are merged into the builder, and the vertex's stored
tag group / arrivals / prev paths are replaced via `setVertexArrivals` (with
TNS and dependent requireds invalidated, and latch outputs enqueued for
latch data pins) only when `Search::arrivalsChanged` holds. -/
def arrivalVisit (inp : VisitIn) (w : SearchWorld) : SearchWorld :=
  if !inp.isVertexPinClock || inp.isPathDelayInternalEndpoint then
    let changed := arrivalsChanged w.vertex inp.bldr
    { vertex :=
        if changed then
          setVertexArrivals w.vertex inp.bldr inp.hasClkOrGenClkSrcTag
        else w.vertex
      faninPathsVisited := true
      latchOutputsEnqueued := w.latchOutputsEnqueued || (inp.isLatchData && changed)
      fanoutsEnqueued := w.fanoutsEnqueued ||
        ((!inp.arrivalsAtEndpointsExist || inp.alwaysToEndpoints || changed)
          && (inp.isRegClkPin || !inp.isPathDelayInternalEndpoint))
      tnsInvalidated := w.tnsInvalidated || changed
      requiredsInvalidated := w.requiredsInvalidated || changed
      refPinDelaysEnqueued := true }
  else w

theorem arrivalVisit_vertex_unchanged (inp : VisitIn) (w : SearchWorld)
    (h : arrivalsChanged w.vertex inp.bldr = false) :
    (arrivalVisit inp w).vertex = w.vertex := by
  unfold arrivalVisit
  by_cases hg : (!inp.isVertexPinClock || inp.isPathDelayInternalEndpoint) = true
  · rw [if_pos hg]
    simp [h]
  · rw [if_neg hg]

/-- C3: `ArrivalVisitor::visit` replaces a vertex's tag group and arrival
array (via `Search::setVertexArrivals`) only when `Search::arrivalsChanged`
holds; for every vertex where the builder holds the same tag set and each
new arrival is fuzzy-equal to the stored arrival of the same tag, the
vertex's tag group index, arrival array and prev-path array are left
unchanged by the visit. -/
theorem claim3_visit_preserves_unchanged_arrivals (inp : VisitIn)
    (w : SearchWorld) (amap : List (PathTag × Nat))
    (hgroup : w.vertex.tagGroup = some amap)
    (hperm : (amap.map Prod.fst).Perm (inp.bldr.map Prod.fst))
    (hagree : ∀ ti ∈ amap,
        bldrArrival inp.bldr ti.1 = some (w.vertex.arrivals.getD ti.2 0)) :
    arrivalsChanged w.vertex inp.bldr = false
    ∧ (arrivalVisit inp w).vertex = w.vertex
    ∧ ∀ (inp' : VisitIn) (w' : SearchWorld),
        (arrivalVisit inp' w').vertex ≠ w'.vertex →
        arrivalsChanged w'.vertex inp'.bldr = true := by
  have hlen : amap.length = inp.bldr.length := by
    have := hperm.length_eq
    simpa using this
  have hchg : arrivalsChanged w.vertex inp.bldr = false := by
    unfold arrivalsChanged
    simp only [hgroup]
    rw [if_neg (by simp [hlen])]
    rw [List.any_eq_false]
    intro ti hti
    rw [hagree ti hti]
    simp [delayFuzzyEqual]
  refine ⟨hchg, arrivalVisit_vertex_unchanged inp w hchg, ?_⟩
  intro inp' w' hne
  cases hc : arrivalsChanged w'.vertex inp'.bldr with
  | false => exact absurd (arrivalVisit_vertex_unchanged inp' w' hc) hne
  | true => rfl

/-- Witness for C3 at a concrete input: a builder fuzzy-equal to the stored
arrivals leaves the vertex untouched. -/
theorem claim3_visit_preserves_unchanged_arrivals_witness :
    arrivalsChanged
        ⟨some [(⟨0, none⟩, 0)], [4], none⟩ [(⟨0, none⟩, 4)] = false
    ∧ (arrivalVisit
        ⟨false, false, [(⟨0, none⟩, 4)], false, false, false, false, false⟩
        ⟨⟨some [(⟨0, none⟩, 0)], [4], none⟩, false, false, false, false, false,
          false⟩).vertex
        = (⟨⟨some [(⟨0, none⟩, 0)], [4], none⟩, false, false, false, false,
            false, false⟩ : SearchWorld).vertex
    ∧ ∀ (inp' : VisitIn) (w' : SearchWorld),
        (arrivalVisit inp' w').vertex ≠ w'.vertex →
        arrivalsChanged w'.vertex inp'.bldr = true :=
  claim3_visit_preserves_unchanged_arrivals
    ⟨false, false, [(⟨0, none⟩, 4)], false, false, false, false, false⟩
    ⟨⟨some [(⟨0, none⟩, 0)], [4], none⟩, false, false, false, false, false,
      false⟩
    [(⟨0, none⟩, 0)] rfl (by decide) (by decide)

/-- C10: for a vertex whose pin is a clock-source pin
(`Sdc::isVertexPinClock`) and not a path-delay internal endpoint,
`ArrivalVisitor::visit` performs no work at all: it neither merges fanin
paths, nor replaces the vertex's tag group / arrivals / prev paths, nor
enqueues latch outputs, fanouts or reference-pin input delays, so a seeded
clock-source arrival is never overwritten by forward propagation. -/
theorem claim10_clock_source_visit_no_work (inp : VisitIn) (w : SearchWorld)
    (hclk : inp.isVertexPinClock = true)
    (hnotpd : inp.isPathDelayInternalEndpoint = false) :
    arrivalVisit inp w = w := by
  unfold arrivalVisit
  rw [hclk, hnotpd]
  simp

/-- Witness for C10 at a concrete input: a clock-source vertex with a
pending builder is returned untouched. -/
theorem claim10_clock_source_visit_no_work_witness :
    arrivalVisit
        ⟨true, false, [(⟨3, none⟩, 9)], true, true, true, false, true⟩
        ⟨⟨some [(⟨0, none⟩, 0)], [4], none⟩, false, false, false, false, false,
          false⟩
      = ⟨⟨some [(⟨0, none⟩, 0)], [4], none⟩, false, false, false, false, false,
          false⟩ :=
  claim10_clock_source_visit_no_work
    ⟨true, false, [(⟨3, none⟩, 9)], true, true, true, false, true⟩
    ⟨⟨some [(⟨0, none⟩, 0)], [4], none⟩, false, false, false, false, false,
      false⟩
    rfl rfl

/-- The edge roles the search dispatches on (TimingRole.hh). -/
inductive TimingRole where
  | wire
  | combinational
  | regClkToQ
  | latchEnToQ
  | latchDtoQ
  | tristateEnable
  | tristateDisable
  | timingCheck
deriving DecidableEq, Repr

/-- Modelled from the spec: `TimingRole::genericRole()` (TimingRole.cc, not
under the verified sources) maps latch-enable-to-Q to reg-clk-to-Q (both are
clock-to-output arcs); every other role is its own generic role. -/
def TimingRole.genericRole : TimingRole → TimingRole
  | .latchEnToQ => .regClkToQ
  | r => r

/-- The scratch state of `RequiredCmp`: per-arrival-slot required times and
the `have_requireds_` flag. -/
structure RequiredCmpState where
  requireds : List Arrival
  haveRequireds : Bool
deriving DecidableEq, Repr

/-- `RequiredCmp::requiredSet`: fold a candidate required time into a slot,
keeping the tighter value (`delayFuzzyGreater` in the opposite direction:
smaller for max-corner paths, larger for min-corner paths). -/
def requiredSet (st : RequiredCmpState) (idx : Nat) (req : Arrival)
    (mm : MinMaxDir) : RequiredCmpState :=
  if delayFuzzyGreater req (st.requireds.getD idx 0) mm then
    ⟨st.requireds.set idx req, true⟩
  else st

/-- The context of one `RequiredVisitor::visitFromToPath` call: the fanout
edge's role, the path direction, the arc delay, the from-path's arrival
slot, whether the outgoing tag survived pruning at the fanout vertex
(`to_tag_group->hasTag(to_tag)`) with its stored required time, and the
required of the first fanout path matching the tag up to the CRPR anchor
(`tagMatchNoCrpr`) used as fallback when the tag was CRPR-pruned. -/
structure ReqVisitCtx where
  role : TimingRole
  minMax : MinMaxDir
  arcDelay : Arrival
  arrivalIndex : Nat
  toTagGroupHasToTag : Bool
  toRequired : Arrival
  noCrprMatch : Option Arrival
deriving DecidableEq, Repr

/-- `RequiredVisitor::visitFromToPath`: required times are not propagated
through latch D->Q edges; through every other fanout edge the candidate
`required(to) - arc_delay` is folded into the from-slot with the
tighter-value reduction, falling back to a tag that matches everything but
the CRPR anchor when the outgoing tag was pruned. -/
def reqVisitFromToPath (c : ReqVisitCtx) (st : RequiredCmpState) :
    RequiredCmpState :=
  if c.role ≠ TimingRole.latchDtoQ then
    let reqMin := c.minMax.opposite
    if c.toTagGroupHasToTag then
      requiredSet st c.arrivalIndex (c.toRequired - c.arcDelay) reqMin
    else
      match c.noCrprMatch with
      | some toReq => requiredSet st c.arrivalIndex (toReq - c.arcDelay) reqMin
      | none => st
  else st

/-- C5: required times never propagate backward through latch D->Q edges:
for a fanout edge whose role is latchDtoQ, `RequiredVisitor::visitFromToPath`
leaves the visited vertex's required values unchanged; for every other
role the candidate `required(w, t') - arc_delay` is computed and folded
with the tighter-value reduction (`requiredSet` in the opposite min/max
direction). -/
theorem claim5_requireds_not_thru_latchDtoQ (c : ReqVisitCtx)
    (st : RequiredCmpState) (hlatch : c.role = TimingRole.latchDtoQ)
    (c' : ReqVisitCtx) (st' : RequiredCmpState)
    (hother : c'.role ≠ TimingRole.latchDtoQ)
    (hkept : c'.toTagGroupHasToTag = true) :
    reqVisitFromToPath c st = st
    ∧ reqVisitFromToPath c' st' =
        requiredSet st' c'.arrivalIndex (c'.toRequired - c'.arcDelay)
          c'.minMax.opposite
    ∧ (delayFuzzyGreater (c'.toRequired - c'.arcDelay)
          (st'.requireds.getD c'.arrivalIndex 0) c'.minMax.opposite = false →
        reqVisitFromToPath c' st' = st') := by
  refine ⟨?_, ?_, ?_⟩
  · unfold reqVisitFromToPath
    rw [if_neg (by simp [hlatch])]
  · unfold reqVisitFromToPath
    rw [if_pos hother, if_pos hkept]
  · intro hle
    unfold reqVisitFromToPath
    rw [if_pos hother, if_pos hkept]
    unfold requiredSet
    rw [hle]
    simp

/-- Witness for C5 at concrete inputs: a latch D->Q fanout edge leaves the
requireds untouched; a combinational fanout edge folds `required - delay`
into the slot. -/
theorem claim5_requireds_not_thru_latchDtoQ_witness :
    reqVisitFromToPath ⟨.latchDtoQ, .mmMax, 1, 0, true, 10, none⟩ ⟨[7], false⟩
        = ⟨[7], false⟩
    ∧ reqVisitFromToPath ⟨.combinational, .mmMax, 1, 0, true, 5, none⟩
        ⟨[7], false⟩
        = requiredSet ⟨[7], false⟩ 0 ((5 : Arrival) - 1)
            (MinMaxDir.mmMax).opposite
    ∧ (delayFuzzyGreater ((5 : Arrival) - 1)
          (([7] : List Arrival).getD 0 0) (MinMaxDir.mmMax).opposite = false →
        reqVisitFromToPath ⟨.combinational, .mmMax, 1, 0, true, 5, none⟩
          ⟨[7], false⟩ = ⟨[7], false⟩) :=
  claim5_requireds_not_thru_latchDtoQ
    ⟨.latchDtoQ, .mmMax, 1, 0, true, 10, none⟩ ⟨[7], false⟩ rfl
    ⟨.combinational, .mmMax, 1, 0, true, 5, none⟩ ⟨[7], false⟩
    (by decide) rfl

/-- The context of one `PathVisitor::visitFromPath` call: the edge's role,
the analysis point's direction, the from-path's tag/clock data, the answers
of the SDC / network / generated-clock queries made for this call, and the
results of the external collaborators (derated delay, tag mutation via
`thruTag` / `thruClkTag` / `fromRegClkTag`, `Latches::latchOutArrival`).
`gclk` is `some combinational?` when `from_tag->genClkSrcPathClk` is
non-null.  `dataArcDelayValid` stands for
`!delayFuzzyEqual(arc_delay, min_max->initValue())` on the data branch. -/
structure VFPCtx where
  role : TimingRole
  minMax : MinMaxDir
  fromArrival : Arrival
  fromIsGenClkSrcPath : Bool
  fromTagIsClock : Bool
  fromTagIsSegmentStart : Bool
  fromHasClkEdge : Bool
  fromHasClk : Bool
  clkStopPropagation : Bool
  clkStopPropagationFromPin : Bool
  clkThruTristateEnabled : Bool
  clkIsDefaultArrivalClk : Bool
  clkDisabledByHpinThru : Bool
  gclk : Option Bool
  faninsHasTo : Bool
  fdbkEdgesHasEdge : Bool
  deratedDelay : Bool → Arrival
  thruClkTagF : Bool → Option Tag
  thruTagF : Option Tag
  thruTagOf : Tag → Option Tag
  fromRegClkTag : Option Tag
  clkPathArrival : Arrival
  latchOutTag : Option Tag
  latchOutArrival : Arrival
  dataArcDelayValid : Bool

/-- `PathVisitor::visitFromPath`: derive the outgoing tag and arrival for one
(edge, arc) step; `some (to_tag, to_arrival)` is the contribution handed to
`visitFromToPath`, `none` means the edge contributes nothing for this path.
The role dispatch follows the source: generated-clock source paths first,
then reg-clk-to-Q (generic role), then latch D->Q (max corner only, arrival
from `Latches::latchOutArrival`), then clock tags, then plain data.
(`Genclks::findLatchFdbkEdges`, called for bookkeeping on the gen-clock
branch, has no effect on the returned contribution.) -/
def visitFromPath (c : VFPCtx) : Option (Tag × Arrival) :=
  if c.fromIsGenClkSrcPath then
    if ¬c.clkStopPropagation
        ∧ (c.clkThruTristateEnabled
            ∨ ¬(c.role = TimingRole.tristateEnable
                ∨ c.role = TimingRole.tristateDisable)) then
      match c.gclk with
      | some gclkCombinational =>
        if (c.role = TimingRole.combinational ∨ c.role = TimingRole.wire
              ∨ ¬gclkCombinational)
            ∧ c.faninsHasTo ∧ ¬c.fdbkEdgesHasEdge then
          match c.thruClkTagF true with
          | some toTag => some (toTag, c.fromArrival + c.deratedDelay true)
          | none => none
        else none
      | none =>
        match c.thruTagF with
        | some toTag => some (toTag, c.fromArrival + c.deratedDelay true)
        | none => none
    else none
  else if c.role.genericRole = TimingRole.regClkToQ then
    if ¬c.fromHasClk ∨ ¬c.clkStopPropagationFromPin then
      if (¬c.fromHasClkEdge ∧ c.fromTagIsSegmentStart)
          ∨ (¬c.clkIsDefaultArrivalClk ∧ c.fromTagIsClock) then
        match c.fromRegClkTag with
        | some t1 =>
          match c.thruTagOf t1 with
          | some toTag => some (toTag, c.clkPathArrival + c.deratedDelay false)
          | none => none
        | none => none
      else none
    else none
  else if c.role = TimingRole.latchDtoQ then
    if c.minMax = MinMaxDir.mmMax then
      match c.latchOutTag with
      | some t1 =>
        match c.thruTagOf t1 with
        | some toTag => some (toTag, c.latchOutArrival)
        | none => none
      | none => none
    else none
  else if c.fromTagIsClock then
    if ¬(c.role = TimingRole.wire ∧ c.clkDisabledByHpinThru) then
      let toPropagatesClk : Bool :=
        !c.clkStopPropagation
          && (c.clkThruTristateEnabled
            || !(decide (c.role = TimingRole.tristateEnable)
                 || decide (c.role = TimingRole.tristateDisable)))
      match c.thruClkTagF toPropagatesClk with
      | some toTag =>
        some (toTag, c.fromArrival + c.deratedDelay toPropagatesClk)
      | none => none
    else none
  else
    if c.dataArcDelayValid then
      match c.thruTagF with
      | some toTag => some (toTag, c.fromArrival + c.deratedDelay false)
      | none => none
    else none

theorem visitFromPath_latch_min_none (c : VFPCtx)
    (hrole : c.role = TimingRole.latchDtoQ)
    (hnotgen : c.fromIsGenClkSrcPath = false)
    (hmin : c.minMax = MinMaxDir.mmMin) :
    visitFromPath c = none := by
  unfold visitFromPath
  rw [hnotgen]
  simp [hrole, hmin, TimingRole.genericRole]

/-- A generated-clock-source path reaching a latch D->Q edge inside a
non-combinational generated clock's fanin, in the min corner: the
gen-clock branch of `visitFromPath` still derives an outgoing tag. -/
def genclkLatchMinCtx : VFPCtx :=
  { role := TimingRole.latchDtoQ
    minMax := MinMaxDir.mmMin
    fromArrival := 0
    fromIsGenClkSrcPath := true
    fromTagIsClock := false
    fromTagIsSegmentStart := false
    fromHasClkEdge := true
    fromHasClk := true
    clkStopPropagation := false
    clkStopPropagationFromPin := false
    clkThruTristateEnabled := false
    clkIsDefaultArrivalClk := false
    clkDisabledByHpinThru := false
    gclk := some false
    faninsHasTo := true
    fdbkEdgesHasEdge := false
    deratedDelay := fun _ => 1
    thruClkTagF := fun _ => some ⟨0, 0, 0, true, none, false, none⟩
    thruTagF := none
    thruTagOf := fun _ => none
    fromRegClkTag := none
    clkPathArrival := 0
    latchOutTag := none
    latchOutArrival := 0
    dataArcDelayValid := false }

/-- C4 counterexample: the claim as stated is false.  At the concrete
context `genclkLatchMinCtx` — a generated-clock source path traversing a
latch D->Q edge of a non-combinational generated clock's fanin, in the min
corner — `PathVisitor::visitFromPath` derives an outgoing tag and arrival
even though the edge role is latchDtoQ and the analysis point is the min
corner (the gen-clock branch at the top of the function runs first and does
not test the corner). -/
theorem claim4_latch_min_corner_counterexample :
    genclkLatchMinCtx.role = TimingRole.latchDtoQ
    ∧ genclkLatchMinCtx.minMax = MinMaxDir.mmMin
    ∧ visitFromPath genclkLatchMinCtx
        = some (⟨0, 0, 0, true, none, false, none⟩, 1) :=
  ⟨rfl, rfl, rfl⟩

/-- C4 (amended): for every path that is not a generated-clock source path,
`PathVisitor::visitFromPath` derives an outgoing tag and arrival through an
edge whose role is latchDtoQ only when the path analysis point's min/max is
max (using the latch enable's open time via `latchOutArrival`); every
min-corner non-gen-clock path gets no outgoing arrival from a latch D->Q
edge. -/
theorem claim4_latch_min_corner_amended (c c' : VFPCtx)
    (hrole : c.role = TimingRole.latchDtoQ)
    (hnotgen : c.fromIsGenClkSrcPath = false)
    (hmin : c.minMax = MinMaxDir.mmMin)
    (hrole' : c'.role = TimingRole.latchDtoQ)
    (hnotgen' : c'.fromIsGenClkSrcPath = false) :
    visitFromPath c = none
    ∧ (visitFromPath c' ≠ none → c'.minMax = MinMaxDir.mmMax) := by
  refine ⟨visitFromPath_latch_min_none c hrole hnotgen hmin, ?_⟩
  intro hsome
  cases hmm : c'.minMax with
  | mmMin => exact absurd (visitFromPath_latch_min_none c' hrole' hnotgen' hmm) hsome
  | mmMax => rfl

/-- Witness for the amended C4 at a concrete input: a plain (non-gen-clock)
latch D->Q context contributes nothing in the min corner. -/
theorem claim4_latch_min_corner_amended_witness :
    visitFromPath { genclkLatchMinCtx with fromIsGenClkSrcPath := false } = none
    ∧ (visitFromPath { genclkLatchMinCtx with fromIsGenClkSrcPath := false }
          ≠ none →
        ({ genclkLatchMinCtx with fromIsGenClkSrcPath := false } : VFPCtx).minMax
          = MinMaxDir.mmMax) :=
  claim4_latch_min_corner_amended
    { genclkLatchMinCtx with fromIsGenClkSrcPath := false }
    { genclkLatchMinCtx with fromIsGenClkSrcPath := false }
    rfl rfl rfl rfl rfl

/-- Structural identity of a `ClkInfo` (ClkInfo.hh): all fields compared by
`Search::findClkInfo`'s probe. -/
structure ClkInfoKey where
  clkEdge : Option Nat
  clkSrc : Option Nat
  isPropagated : Bool
  genClkSrc : Option Nat
  isGenClkSrcPath : Bool
  pulseClkSense : Option Nat
  insertion : Arrival
  latency : Arrival
  uncertainties : Option Nat
  pathAPIndex : Nat
  crprClkPath : Option Nat
deriving DecidableEq, Repr

/-- Structural identity of a `TagGroup`: the set of (tag, arrival index)
pairs of its arrival map (TagGroup.hh equality is on the tag set). -/
abbrev TagGroupKey := Multiset (Tag × Nat)

/-- The pooled hash-set lookup (`findKey` on `tag_set_` / `clk_info_set_` /
`tag_group_set_`) at value level: the index of a structurally equal pooled
object, if any. -/
def findKeyIdx {α : Type} [DecidableEq α] : List α → α → Option Nat
  | [], _ => none
  | x :: rest, k =>
    if x = k then some 0 else (findKeyIdx rest k).map (fun i => i + 1)

/-- Double-checked interning at value level: return the already-pooled
structurally equal object when one exists, else append the new object at
the next index (`tags_[tag_count_++] = tag; tag_set_->insert(tag)`). -/
def internKey {α : Type} [DecidableEq α] (pool : List α) (k : α) :
    Nat × List α :=
  match findKeyIdx pool k with
  | some i => (i, pool)
  | none => (pool.length, pool ++ [k])

/-- A pool reachable during a search: built by interning a sequence of keys
starting from the empty pool (`Search::clear` empties the pools). -/
def internAll {α : Type} [DecidableEq α] (ks : List α) : List α :=
  ks.foldl (fun p k => (internKey p k).2) []

/-- `Search::findTag` on the pool of interned tags. -/
def findTag (pool : List Tag) (k : Tag) : Nat × List Tag :=
  internKey pool k

/-- `Search::findClkInfo` on the pool of interned clock infos. -/
def findClkInfo (pool : List ClkInfoKey) (k : ClkInfoKey) :
    Nat × List ClkInfoKey :=
  internKey pool k

/-- `Search::findTagGroup` on the pool of interned tag groups. -/
def findTagGroup (pool : List TagGroupKey) (k : TagGroupKey) :
    Nat × List TagGroupKey :=
  internKey pool k

theorem findKeyIdx_eq_none_iff {α : Type} [DecidableEq α] :
    ∀ (pool : List α) (k : α), findKeyIdx pool k = none ↔ k ∉ pool := by
  intro pool k
  induction pool with
  | nil => simp [findKeyIdx]
  | cons x rest ih =>
    by_cases h : x = k
    · subst h
      simp [findKeyIdx]
    · constructor
      · intro hnone
        simp only [findKeyIdx, if_neg h] at hnone
        cases hrest : findKeyIdx rest k with
        | none =>
          have hnr : k ∉ rest := ih.mp hrest
          intro hc
          rcases List.mem_cons.mp hc with h1 | h2
          · exact h h1.symm
          · exact hnr h2
        | some j =>
          rw [hrest] at hnone
          simp at hnone
      · intro hmem
        simp only [findKeyIdx, if_neg h]
        have hnr : k ∉ rest := fun hr => hmem (List.mem_cons_of_mem x hr)
        rw [ih.mpr hnr]
        rfl

theorem findKeyIdx_get? {α : Type} [DecidableEq α] :
    ∀ (pool : List α) (k : α) (i : Nat),
      findKeyIdx pool k = some i → pool.get? i = some k := by
  intro pool
  induction pool with
  | nil => intro k i h; simp [findKeyIdx] at h
  | cons x rest ih =>
    intro k i h
    by_cases hx : x = k
    · subst hx
      simp [findKeyIdx] at h
      subst h
      rfl
    · simp only [findKeyIdx, if_neg hx] at h
      cases hrest : findKeyIdx rest k with
      | none => rw [hrest] at h; simp at h
      | some j =>
        rw [hrest] at h
        simp at h
        subst h
        simpa using ih k j hrest

theorem internKey_nodup {α : Type} [DecidableEq α] (pool : List α) (k : α)
    (h : pool.Nodup) : (internKey pool k).2.Nodup := by
  unfold internKey
  cases hfind : findKeyIdx pool k with
  | some i => exact h
  | none =>
    have hnot : k ∉ pool := (findKeyIdx_eq_none_iff pool k).mp hfind
    have hdisj : List.Disjoint pool [k] := by
      intro a ha hmem
      rw [List.mem_singleton] at hmem
      subst hmem
      exact hnot ha
    simp only []
    rw [List.nodup_append]
    exact ⟨h, List.nodup_singleton k, hdisj⟩

theorem internAll_nodup_go {α : Type} [DecidableEq α] :
    ∀ (ks : List α) (pool : List α), pool.Nodup →
      (ks.foldl (fun p k => (internKey p k).2) pool).Nodup := by
  intro ks
  induction ks with
  | nil => intro pool h; exact h
  | cons k rest ih =>
    intro pool h
    rw [List.foldl_cons]
    exact ih _ (internKey_nodup pool k h)

theorem internAll_nodup {α : Type} [DecidableEq α] (ks : List α) :
    (internAll ks).Nodup :=
  internAll_nodup_go ks [] List.nodup_nil

theorem internKey_mem {α : Type} [DecidableEq α] (pool : List α) (k : α)
    (hmem : k ∈ pool) :
    ∃ i, internKey pool k = (i, pool) ∧ pool.get? i = some k := by
  unfold internKey
  cases hfind : findKeyIdx pool k with
  | some i => exact ⟨i, rfl, findKeyIdx_get? pool k i hfind⟩
  | none =>
    exact absurd hmem ((findKeyIdx_eq_none_iff pool k).mp hfind)

theorem internKey_new {α : Type} [DecidableEq α] (pool : List α) (k : α)
    (hnew : k ∉ pool) :
    internKey pool k = (pool.length, pool ++ [k]) := by
  unfold internKey
  rw [(findKeyIdx_eq_none_iff pool k).mpr hnew]

theorem findKeyIdx_mem {α : Type} [DecidableEq α] (pool : List α) (k : α)
    (h : k ∈ pool) : ∃ i, findKeyIdx pool k = some i := by
  cases hf : findKeyIdx pool k with
  | none => exact absurd h ((findKeyIdx_eq_none_iff pool k).mp hf)
  | some i => exact ⟨i, rfl⟩

theorem internPool_spec {α : Type} [DecidableEq α] (ks : List α) (k k' : α)
    (hmem : k ∈ internAll ks) (hnew : k' ∉ internAll ks) :
    (internAll ks).Nodup
    ∧ (∃ i, internKey (internAll ks) k = (i, internAll ks)
        ∧ (internAll ks).get? i = some k)
    ∧ internKey (internAll ks) k' = ((internAll ks).length, internAll ks ++ [k'])
    ∧ ∀ i1 i2 : Fin (internAll ks).length,
        (internAll ks).get i1 = (internAll ks).get i2 → i1 = i2 :=
  ⟨internAll_nodup ks, internKey_mem _ k hmem, internKey_new _ k' hnew,
    fun _ _ h => ((internAll_nodup ks).get_inj_iff).mp h⟩

/-- C6: interning invariant.  Every pool reachable during a search (built by
interning from an empty pool) holds no two structurally equal objects, so
two structurally equal Tags (same transition, path-analysis-point index,
ClkInfo, clock flag, input delay, segment-start flag and exception-state
set) are the same pooled object (index); the same holds for ClkInfo and
TagGroup.  `Search::findTag`, `Search::findClkInfo` and
`Search::findTagGroup` return the already-pooled object whenever a
structurally equal one exists and intern a new one otherwise. -/
theorem claim6_interning_pointer_equality
    (ks : List Tag) (k : Tag) (hmem : k ∈ internAll ks)
    (k' : Tag) (hnew : k' ∉ internAll ks)
    (cs : List ClkInfoKey) (ci : ClkInfoKey) (hcmem : ci ∈ internAll cs)
    (ci' : ClkInfoKey) (hcnew : ci' ∉ internAll cs)
    (gs : List TagGroupKey) (g : TagGroupKey) (hgmem : g ∈ internAll gs)
    (g' : TagGroupKey) (hgnew : g' ∉ internAll gs) :
    ((internAll ks).Nodup
      ∧ (∃ i, findTag (internAll ks) k = (i, internAll ks)
          ∧ (internAll ks).get? i = some k)
      ∧ findTag (internAll ks) k' = ((internAll ks).length, internAll ks ++ [k'])
      ∧ ∀ i1 i2 : Fin (internAll ks).length,
          (internAll ks).get i1 = (internAll ks).get i2 → i1 = i2)
    ∧ ((internAll cs).Nodup
      ∧ (∃ i, findClkInfo (internAll cs) ci = (i, internAll cs)
          ∧ (internAll cs).get? i = some ci)
      ∧ findClkInfo (internAll cs) ci'
          = ((internAll cs).length, internAll cs ++ [ci'])
      ∧ ∀ i1 i2 : Fin (internAll cs).length,
          (internAll cs).get i1 = (internAll cs).get i2 → i1 = i2)
    ∧ ((internAll gs).Nodup
      ∧ (∃ i, findTagGroup (internAll gs) g = (i, internAll gs)
          ∧ (internAll gs).get? i = some g)
      ∧ findTagGroup (internAll gs) g'
          = ((internAll gs).length, internAll gs ++ [g'])
      ∧ ∀ i1 i2 : Fin (internAll gs).length,
          (internAll gs).get i1 = (internAll gs).get i2 → i1 = i2) :=
  ⟨internPool_spec ks k k' hmem hnew,
   internPool_spec cs ci ci' hcmem hcnew,
   internPool_spec gs g g' hgmem hgnew⟩

/-- Witness for C6 at concrete pools of one interned object each. -/
theorem claim6_interning_pointer_equality_witness :
    (((internAll [(⟨0, 0, 0, false, none, false, none⟩ : Tag)]).Nodup
      ∧ (∃ i, findTag (internAll [(⟨0, 0, 0, false, none, false, none⟩ : Tag)])
            ⟨0, 0, 0, false, none, false, none⟩
            = (i, internAll [(⟨0, 0, 0, false, none, false, none⟩ : Tag)])
          ∧ (internAll [(⟨0, 0, 0, false, none, false, none⟩ : Tag)]).get? i
            = some ⟨0, 0, 0, false, none, false, none⟩)
      ∧ findTag (internAll [(⟨0, 0, 0, false, none, false, none⟩ : Tag)])
            ⟨1, 0, 0, false, none, false, none⟩
          = ((internAll [(⟨0, 0, 0, false, none, false, none⟩ : Tag)]).length,
             internAll [(⟨0, 0, 0, false, none, false, none⟩ : Tag)]
               ++ [⟨1, 0, 0, false, none, false, none⟩])
      ∧ ∀ i1 i2 : Fin (internAll
            [(⟨0, 0, 0, false, none, false, none⟩ : Tag)]).length,
          (internAll [(⟨0, 0, 0, false, none, false, none⟩ : Tag)]).get i1
            = (internAll [(⟨0, 0, 0, false, none, false, none⟩ : Tag)]).get i2
          → i1 = i2)
    ∧ ((internAll [(⟨none, none, false, none, false, none, 0, 0, none, 0,
          none⟩ : ClkInfoKey)]).Nodup
      ∧ (∃ i, findClkInfo (internAll [(⟨none, none, false, none, false, none,
              0, 0, none, 0, none⟩ : ClkInfoKey)])
            ⟨none, none, false, none, false, none, 0, 0, none, 0, none⟩
            = (i, internAll [(⟨none, none, false, none, false, none, 0, 0,
                none, 0, none⟩ : ClkInfoKey)])
          ∧ (internAll [(⟨none, none, false, none, false, none, 0, 0, none, 0,
              none⟩ : ClkInfoKey)]).get? i
            = some ⟨none, none, false, none, false, none, 0, 0, none, 0, none⟩)
      ∧ findClkInfo (internAll [(⟨none, none, false, none, false, none, 0, 0,
            none, 0, none⟩ : ClkInfoKey)])
            ⟨none, none, true, none, false, none, 0, 0, none, 0, none⟩
          = ((internAll [(⟨none, none, false, none, false, none, 0, 0, none,
              0, none⟩ : ClkInfoKey)]).length,
             internAll [(⟨none, none, false, none, false, none, 0, 0, none, 0,
               none⟩ : ClkInfoKey)]
               ++ [⟨none, none, true, none, false, none, 0, 0, none, 0, none⟩])
      ∧ ∀ i1 i2 : Fin (internAll [(⟨none, none, false, none, false, none, 0,
            0, none, 0, none⟩ : ClkInfoKey)]).length,
          (internAll [(⟨none, none, false, none, false, none, 0, 0, none, 0,
            none⟩ : ClkInfoKey)]).get i1
            = (internAll [(⟨none, none, false, none, false, none, 0, 0, none,
              0, none⟩ : ClkInfoKey)]).get i2
          → i1 = i2)
    ∧ ((internAll [(0 : TagGroupKey)]).Nodup
      ∧ (∃ i, findTagGroup (internAll [(0 : TagGroupKey)]) 0
            = (i, internAll [(0 : TagGroupKey)])
          ∧ (internAll [(0 : TagGroupKey)]).get? i = some 0)
      ∧ findTagGroup (internAll [(0 : TagGroupKey)])
            {(⟨0, 0, 0, false, none, false, none⟩, 0)}
          = ((internAll [(0 : TagGroupKey)]).length,
             internAll [(0 : TagGroupKey)]
               ++ [{(⟨0, 0, 0, false, none, false, none⟩, 0)}])
      ∧ ∀ i1 i2 : Fin (internAll [(0 : TagGroupKey)]).length,
          (internAll [(0 : TagGroupKey)]).get i1
            = (internAll [(0 : TagGroupKey)]).get i2
          → i1 = i2)) :=
  claim6_interning_pointer_equality
    [⟨0, 0, 0, false, none, false, none⟩] ⟨0, 0, 0, false, none, false, none⟩
    (by decide) ⟨1, 0, 0, false, none, false, none⟩ (by decide)
    [⟨none, none, false, none, false, none, 0, 0, none, 0, none⟩]
    ⟨none, none, false, none, false, none, 0, 0, none, 0, none⟩ (by decide)
    ⟨none, none, true, none, false, none, 0, 0, none, 0, none⟩ (by decide)
    [0] 0 (by decide) {(⟨0, 0, 0, false, none, false, none⟩, 0)} (by decide)

/-- `Search::findTag` with its capacity sentinel: after interning one more
tag, `tag_count_ > tag_index_max` raises the fatal internal error
"max tag index exceeded"; otherwise the interned index is returned. -/
def findTagChecked (tagIndexMax : Nat) (pool : List Tag) (k : Tag) :
    Except String (Nat × List Tag) :=
  match findKeyIdx pool k with
  | some i => Except.ok (i, pool)
  | none =>
    let pool2 := pool ++ [k]
    if pool2.length > tagIndexMax then Except.error "max tag index exceeded"
    else Except.ok (pool.length, pool2)

/-- `Search::findTagGroup` with its capacity sentinel: after interning one
more group, `tag_group_count_ > tag_group_index_max` raises the fatal
internal error "max tag group index exceeded". -/
def findTagGroupChecked (tagGroupIndexMax : Nat) (pool : List TagGroupKey)
    (k : TagGroupKey) : Except String (Nat × List TagGroupKey) :=
  match findKeyIdx pool k with
  | some i => Except.ok (i, pool)
  | none =>
    let pool2 := pool ++ [k]
    if pool2.length > tagGroupIndexMax then
      Except.error "max tag group index exceeded"
    else Except.ok (pool.length, pool2)

/-- C9: when interning one more tag (tag group) would exceed the index
sentinel, the search raises a fatal internal error with the diagnostic
"max tag index exceeded" ("max tag group index exceeded") rather than
continuing with a truncated index; below the sentinel interning never
errors — a new key is interned at the next index and an already-pooled key
is found without error under any sentinel. -/
theorem claim9_intern_overflow_fatal (maxA maxB : Nat) (pool : List Tag)
    (k kmem : Tag) (hnew : k ∉ pool) (hmem : kmem ∈ pool)
    (hover : pool.length + 1 > maxA) (hfits : pool.length + 1 ≤ maxB)
    (gmaxA gmaxB : Nat) (gpool : List TagGroupKey) (g gmem : TagGroupKey)
    (hgnew : g ∉ gpool) (hgmem : gmem ∈ gpool)
    (hgover : gpool.length + 1 > gmaxA) (hgfits : gpool.length + 1 ≤ gmaxB) :
    findTagChecked maxA pool k = Except.error "max tag index exceeded"
    ∧ findTagChecked maxB pool k = Except.ok (pool.length, pool ++ [k])
    ∧ (∃ r, findTagChecked maxA pool kmem = Except.ok r)
    ∧ findTagGroupChecked gmaxA gpool g
        = Except.error "max tag group index exceeded"
    ∧ findTagGroupChecked gmaxB gpool g
        = Except.ok (gpool.length, gpool ++ [g])
    ∧ (∃ r, findTagGroupChecked gmaxA gpool gmem = Except.ok r) := by
  refine ⟨?_, ?_, ?_, ?_, ?_, ?_⟩
  · unfold findTagChecked
    rw [(findKeyIdx_eq_none_iff pool k).mpr hnew]
    simp only []
    rw [if_pos (by simpa using hover)]
  · unfold findTagChecked
    rw [(findKeyIdx_eq_none_iff pool k).mpr hnew]
    simp only []
    rw [if_neg (by simp; omega)]
  · obtain ⟨i, hi⟩ := findKeyIdx_mem pool kmem hmem
    refine ⟨(i, pool), ?_⟩
    unfold findTagChecked
    rw [hi]
  · unfold findTagGroupChecked
    rw [(findKeyIdx_eq_none_iff gpool g).mpr hgnew]
    simp only []
    rw [if_pos (by simpa using hgover)]
  · unfold findTagGroupChecked
    rw [(findKeyIdx_eq_none_iff gpool g).mpr hgnew]
    simp only []
    rw [if_neg (by simp; omega)]
  · obtain ⟨i, hi⟩ := findKeyIdx_mem gpool gmem hgmem
    refine ⟨(i, gpool), ?_⟩
    unfold findTagGroupChecked
    rw [hi]

/-- Witness for C9 at concrete pools: a one-tag pool with sentinel 1 errors
on a second tag, with sentinel 2 interns it, and finding the pooled tag
never errors; likewise for tag groups. -/
theorem claim9_intern_overflow_fatal_witness :
    findTagChecked 1 [⟨0, 0, 0, false, none, false, none⟩]
        ⟨1, 0, 0, false, none, false, none⟩
      = Except.error "max tag index exceeded"
    ∧ findTagChecked 2 [⟨0, 0, 0, false, none, false, none⟩]
        ⟨1, 0, 0, false, none, false, none⟩
      = Except.ok (([(⟨0, 0, 0, false, none, false, none⟩ : Tag)]).length,
          [⟨0, 0, 0, false, none, false, none⟩]
            ++ [⟨1, 0, 0, false, none, false, none⟩])
    ∧ (∃ r, findTagChecked 1 [⟨0, 0, 0, false, none, false, none⟩]
        ⟨0, 0, 0, false, none, false, none⟩ = Except.ok r)
    ∧ findTagGroupChecked 1 [(0 : TagGroupKey)]
        {(⟨0, 0, 0, false, none, false, none⟩, 0)}
      = Except.error "max tag group index exceeded"
    ∧ findTagGroupChecked 2 [(0 : TagGroupKey)]
        {(⟨0, 0, 0, false, none, false, none⟩, 0)}
      = Except.ok (([(0 : TagGroupKey)]).length,
          [(0 : TagGroupKey)] ++ [{(⟨0, 0, 0, false, none, false, none⟩, 0)}])
    ∧ (∃ r, findTagGroupChecked 1 [(0 : TagGroupKey)] 0 = Except.ok r) :=
  claim9_intern_overflow_fatal 1 2 [⟨0, 0, 0, false, none, false, none⟩]
    ⟨1, 0, 0, false, none, false, none⟩ ⟨0, 0, 0, false, none, false, none⟩
    (by decide) (by decide) (by decide) (by decide)
    1 2 [(0 : TagGroupKey)] {(⟨0, 0, 0, false, none, false, none⟩, 0)} 0
    (by decide) (by decide) (by decide) (by decide)

/-- Modelled from the spec: `fuzzyLess(slack, 0.0)` (Fuzzy.hh, not under the
verified sources), tolerance degenerated to exact comparison. -/
def fuzzyLessZero (s : Int) : Bool :=
  decide (s < 0)

/-- The TNS accumulator for one min/max index: the running total
`tns_[index]` and the per-endpoint recorded negative slacks
`tns_slacks_[index]`. -/
structure TnsState where
  tns : Int
  slacks : Nat → Option Int

/-- `Search::tnsIncr`: an endpoint contributes only when its slack is
negative; the slack is then added to the total and recorded for the vertex.
`none` models the `internalError("tns incr existing vertex")` assertion
when the vertex already has a recorded slack. -/
def tnsIncr (st : TnsState) (v : Nat) (slack : Int) : Option TnsState :=
  if fuzzyLessZero slack then
    if (st.slacks v).isSome then none
    else
      some { tns := st.tns + slack
             slacks := fun w => if w = v then some slack else st.slacks w }
  else some st

/-- `Search::tnsDecr`: remove the vertex's previously recorded contribution,
when one was recorded and negative. -/
def tnsDecr (st : TnsState) (v : Nat) : TnsState :=
  match st.slacks v with
  | some s =>
    if fuzzyLessZero s then
      { tns := st.tns - s
        slacks := fun w => if w = v then none else st.slacks w }
    else st
  | none => st

/-- `Search::updateTns` for one min/max index: subtract the vertex's last
contribution, then add its freshly computed endpoint slack. -/
def updateTns (st : TnsState) (v : Nat) (slack : Int) : Option TnsState :=
  tnsIncr (tnsDecr st v) v slack

/-- The iteration of `Search::findTotalNegativeSlacks` over the endpoint
set, folding `tnsIncr` of each endpoint's worst slack. -/
def tnsFold (slack : Nat → Int) : List Nat → TnsState → Option TnsState
  | [], st => some st
  | v :: rest, st =>
    match tnsIncr st v (slack v) with
    | none => none
    | some st2 => tnsFold slack rest st2

/-- `Search::findTotalNegativeSlacks` for one min/max index: zero the total,
clear the recorded slacks, and fold every endpoint's slack in. -/
def findTotalNegativeSlacks (endpoints : List Nat) (slack : Nat → Int) :
    Option TnsState :=
  tnsFold slack endpoints { tns := 0, slacks := fun _ => none }

/-- The negative part of a slack: its contribution to TNS. -/
def tnsNegPart (x : Int) : Int :=
  if x < 0 then x else 0

/-- The sum of negative per-endpoint slacks. -/
def negSum (endpoints : List Nat) (slack : Nat → Int) : Int :=
  (endpoints.map (fun v => tnsNegPart (slack v))).sum

theorem negSum_congr (l : List Nat) (f g : Nat → Int)
    (h : ∀ w ∈ l, f w = g w) : negSum l f = negSum l g := by
  induction l with
  | nil => rfl
  | cons u rest ih =>
    simp only [negSum, List.map_cons, List.sum_cons] at *
    rw [h u (List.mem_cons_self u rest),
      ih (fun w hw => h w (List.mem_cons_of_mem u hw))]

theorem negSum_append (a b : List Nat) (f : Nat → Int) :
    negSum (a ++ b) f = negSum a f + negSum b f := by
  simp [negSum]

theorem negSum_update (endpoints : List Nat) (v : Nat) (s : Int)
    (slack : Nat → Int) (hnodup : endpoints.Nodup) (hv : v ∈ endpoints) :
    negSum endpoints (fun w => if w = v then s else slack w)
      = negSum endpoints slack - tnsNegPart (slack v) + tnsNegPart s := by
  induction endpoints with
  | nil => exact absurd hv (List.not_mem_nil v)
  | cons u rest ih =>
    have hu : u ∉ rest := (List.nodup_cons.mp hnodup).1
    have hrest : rest.Nodup := (List.nodup_cons.mp hnodup).2
    simp only [negSum, List.map_cons, List.sum_cons]
    by_cases huv : u = v
    · subst huv
      have hcongr : negSum rest (fun w => if w = u then s else slack w)
          = negSum rest slack :=
        negSum_congr rest _ _ (fun w hw =>
          if_neg (fun hwu : w = u => hu (hwu ▸ hw)))
      simp only [negSum] at hcongr
      rw [if_pos rfl, hcongr]
      omega
    · have hvrest : v ∈ rest := by
        rcases List.mem_cons.mp hv with h1 | h2
        · exact absurd h1.symm huv
        · exact h2
      have hih := ih hrest hvrest
      simp only [negSum] at hih
      rw [if_neg huv, hih]
      omega

theorem tnsFold_spec (slack : Nat → Int) :
    ∀ (l processed : List Nat) (st : TnsState),
      l.Nodup → (∀ v ∈ l, v ∉ processed) →
      st.tns = negSum processed slack →
      (∀ v, st.slacks v =
        if v ∈ processed ∧ slack v < 0 then some (slack v) else none) →
      ∃ st', tnsFold slack l st = some st'
        ∧ st'.tns = negSum (processed ++ l) slack
        ∧ ∀ v, st'.slacks v =
            if v ∈ processed ++ l ∧ slack v < 0 then some (slack v) else none := by
  intro l
  induction l with
  | nil =>
    intro processed st _ _ htns hslacks
    exact ⟨st, rfl, by simpa using htns, by simpa using hslacks⟩
  | cons v rest ih =>
    intro processed st hnodup hdisj htns hslacks
    have hvp : v ∉ processed := hdisj v (List.mem_cons_self v rest)
    have hsv : st.slacks v = none := by
      rw [hslacks v, if_neg]
      intro hc
      exact hvp hc.1
    have hnodup' : rest.Nodup := (List.nodup_cons.mp hnodup).2
    have hvrest : v ∉ rest := (List.nodup_cons.mp hnodup).1
    have hdisj' : ∀ w ∈ rest, w ∉ processed ++ [v] := by
      intro w hw hc
      rcases List.mem_append.mp hc with h1 | h2
      · exact hdisj w (List.mem_cons_of_mem v hw) h1
      · rw [List.mem_singleton] at h2
        exact hvrest (h2 ▸ hw)
    have happ : processed ++ v :: rest = (processed ++ [v]) ++ rest := by
      simp
    by_cases hneg : slack v < 0
    · have hstep : tnsIncr st v (slack v) =
          some { tns := st.tns + slack v
                 slacks := fun w => if w = v then some (slack v)
                   else st.slacks w } := by
        unfold tnsIncr
        rw [if_pos (by simpa [fuzzyLessZero] using hneg), hsv]
        rfl
      have htns2 : st.tns + slack v = negSum (processed ++ [v]) slack := by
        rw [negSum_append, htns]
        simp [negSum, tnsNegPart, hneg]
      have hslacks2 : ∀ w,
          (if w = v then some (slack v) else st.slacks w) =
            if w ∈ processed ++ [v] ∧ slack w < 0 then some (slack w)
            else none := by
        intro w
        by_cases hwv : w = v
        · subst hwv
          rw [if_pos rfl, if_pos ⟨List.mem_append_right _ (List.mem_singleton_self w), hneg⟩]
        · rw [if_neg hwv, hslacks w]
          by_cases hwp : w ∈ processed ∧ slack w < 0
          · rw [if_pos hwp, if_pos ⟨List.mem_append_left _ hwp.1, hwp.2⟩]
          · rw [if_neg hwp, if_neg]
            intro hc
            rcases List.mem_append.mp hc.1 with h1 | h2
            · exact hwp ⟨h1, hc.2⟩
            · rw [List.mem_singleton] at h2
              exact hwv h2
      obtain ⟨st', hst', htns', hslacks'⟩ :=
        ih (processed ++ [v])
          { tns := st.tns + slack v
            slacks := fun w => if w = v then some (slack v) else st.slacks w }
          hnodup' hdisj' htns2 hslacks2
      refine ⟨st', ?_, by rwa [happ], by rwa [happ]⟩
      unfold tnsFold
      rw [hstep]
      exact hst'
    · have hstep : tnsIncr st v (slack v) = some st := by
        unfold tnsIncr
        rw [if_neg (by simpa [fuzzyLessZero] using hneg)]
      have htns2 : st.tns = negSum (processed ++ [v]) slack := by
        rw [negSum_append, htns]
        simp [negSum, tnsNegPart, hneg]
      have hslacks2 : ∀ w, st.slacks w =
          if w ∈ processed ++ [v] ∧ slack w < 0 then some (slack w)
          else none := by
        intro w
        rw [hslacks w]
        by_cases hwv : w = v
        · subst hwv
          rw [if_neg (fun hc => hvp hc.1), if_neg (fun hc => hneg hc.2)]
        · by_cases hwp : w ∈ processed ∧ slack w < 0
          · rw [if_pos hwp, if_pos ⟨List.mem_append_left _ hwp.1, hwp.2⟩]
          · rw [if_neg hwp, if_neg]
            intro hc
            rcases List.mem_append.mp hc.1 with h1 | h2
            · exact hwp ⟨h1, hc.2⟩
            · rw [List.mem_singleton] at h2
              exact hwv h2
      obtain ⟨st', hst', htns', hslacks'⟩ :=
        ih (processed ++ [v]) st hnodup' hdisj' htns2 hslacks2
      refine ⟨st', ?_, by rwa [happ], by rwa [happ]⟩
      unfold tnsFold
      rw [hstep]
      exact hst'

theorem updateTns_spec (endpoints : List Nat) (slack : Nat → Int)
    (st : TnsState) (v : Nat) (s : Int)
    (hnodup : endpoints.Nodup) (hv : v ∈ endpoints)
    (htns : st.tns = negSum endpoints slack)
    (hslacks : ∀ w, st.slacks w =
      if w ∈ endpoints ∧ slack w < 0 then some (slack w) else none) :
    ∃ st', updateTns st v s = some st'
      ∧ st'.tns = negSum endpoints (fun w => if w = v then s else slack w)
      ∧ ∀ w, st'.slacks w =
          if w ∈ endpoints ∧ (if w = v then s else slack w) < 0
          then some (if w = v then s else slack w) else none := by
  have hdecr_tns : (tnsDecr st v).tns
      = negSum endpoints slack - tnsNegPart (slack v) := by
    by_cases hneg : slack v < 0
    · simp [tnsDecr, hslacks v, hv, hneg, fuzzyLessZero, htns, tnsNegPart]
    · simp [tnsDecr, hslacks v, hv, hneg, fuzzyLessZero, htns, tnsNegPart]
  have hdecr_v : (tnsDecr st v).slacks v = none := by
    by_cases hneg : slack v < 0
    · simp [tnsDecr, hslacks v, hv, hneg, fuzzyLessZero]
    · simp [tnsDecr, hslacks v, hv, hneg, fuzzyLessZero]
  have hdecr_w : ∀ w, w ≠ v → (tnsDecr st v).slacks w = st.slacks w := by
    intro w hwv
    by_cases hneg : slack v < 0
    · simp [tnsDecr, hslacks v, hv, hneg, fuzzyLessZero, hwv]
    · simp [tnsDecr, hslacks v, hv, hneg, fuzzyLessZero]
  have hsum := negSum_update endpoints v s slack hnodup hv
  unfold updateTns tnsIncr
  by_cases hs : s < 0
  · rw [if_pos (by simpa [fuzzyLessZero] using hs), hdecr_v]
    simp only [Option.isSome_none, Bool.false_eq_true, if_false]
    refine ⟨_, rfl, ?_, ?_⟩
    · simp only [hdecr_tns, hsum]
      simp [tnsNegPart, hs]
    · intro w
      by_cases hwv : w = v
      · subst hwv
        simp [hv, hs]
      · simp only [if_neg hwv]
        rw [hdecr_w w hwv, hslacks w]
  · rw [if_neg (by simpa [fuzzyLessZero] using hs)]
    refine ⟨_, rfl, ?_, ?_⟩
    · rw [hdecr_tns, hsum]
      simp [tnsNegPart, hs]
    · intro w
      by_cases hwv : w = v
      · subst hwv
        rw [hdecr_v]
        simp [hs]
      · simp only [if_neg hwv]
        rw [hdecr_w w hwv, hslacks w]

/-- C7: incremental TNS update is equivalent to recomputation from scratch.
Starting from the state `Search::findTotalNegativeSlacks` builds over the
whole endpoint set, a `Search::updateTns` at an endpoint — subtracting the
vertex's previous contribution (`tnsDecr`) and adding its recomputed slack
(`tnsIncr`, which contributes only when the slack is negative) — leaves the
accumulated total equal to the sum of negative per-endpoint slacks that a
fresh `findTotalNegativeSlacks` over the updated slacks computes. -/
theorem claim7_incremental_tns_equals_recompute (endpoints : List Nat)
    (hnodup : endpoints.Nodup) (slack : Nat → Int) (v : Nat)
    (hv : v ∈ endpoints) (s : Int) :
    ∃ st st' st'',
      findTotalNegativeSlacks endpoints slack = some st
      ∧ updateTns st v s = some st'
      ∧ findTotalNegativeSlacks endpoints (fun w => if w = v then s else slack w)
          = some st''
      ∧ st'.tns = st''.tns
      ∧ ∀ (st0 : TnsState) (w : Nat) (x : Int), ¬x < 0 →
          tnsIncr st0 w x = some st0 := by
  obtain ⟨st, hfold, htns, hslacks⟩ :=
    tnsFold_spec slack endpoints [] { tns := 0, slacks := fun _ => none }
      hnodup (by simp) (by simp [negSum]) (by simp)
  obtain ⟨st', hupd, htns', hslacks'⟩ :=
    updateTns_spec endpoints slack st v s hnodup hv (by simpa using htns)
      (by simpa using hslacks)
  obtain ⟨st'', hfold'', htns'', _⟩ :=
    tnsFold_spec (fun w => if w = v then s else slack w) endpoints []
      { tns := 0, slacks := fun _ => none } hnodup (by simp)
      (by simp [negSum]) (by simp)
  refine ⟨st, st', st'', hfold, hupd, hfold'', ?_, ?_⟩
  · rw [htns', htns'']
    simp
  · intro st0 w x hx
    unfold tnsIncr
    rw [if_neg (by simpa [fuzzyLessZero] using hx)]

/-- Witness for C7 at a concrete input: endpoints 0 and 1 with slacks -2
and 3; the slack of endpoint 0 is updated to -1 incrementally. -/
theorem claim7_incremental_tns_equals_recompute_witness :
    ∃ st st' st'',
      findTotalNegativeSlacks [0, 1]
          (fun w => if w = 0 then (-2 : Int) else 3) = some st
      ∧ updateTns st 0 (-1) = some st'
      ∧ findTotalNegativeSlacks [0, 1]
          (fun w => if w = 0 then (-1 : Int)
            else if w = 0 then (-2 : Int) else 3) = some st''
      ∧ st'.tns = st''.tns
      ∧ ∀ (st0 : TnsState) (w : Nat) (x : Int), ¬x < 0 →
          tnsIncr st0 w x = some st0 :=
  claim7_incremental_tns_equals_recompute [0, 1] (by decide)
    (fun w => if w = 0 then (-2 : Int) else 3) 0 (by decide) (-1)

/-- The mutable state driving `Search::findArrivals`: the
`arrivals_seeded_` flag, the forward BFS worklist (`arrival_iter_`), the
`invalid_arrivals_` set, and the per-vertex search data (tag groups,
arrival arrays), abstracted as `vdata`. -/
structure SearchRunState (α : Type) where
  seeded : Bool
  queue : List Nat
  invalid : List Nat
  vdata : α

/-- Modelled from the spec: `BfsFwdIterator::visitParallel` (Bfs.cc, not
under the verified sources) drains the level-ordered worklist, visiting
each vertex with the arrival visitor — which may update per-vertex data and
enqueue fanout vertices — and returns the visit count; an empty worklist
returns immediately with no visits.  `fuel` bounds the drain. -/
def visitParallel {α : Type} (visit : α → Nat → α × List Nat) :
    Nat → List Nat → α → α × List Nat × Nat
  | _, [], vd => (vd, [], 0)
  | 0, v :: q, vd => (vd, v :: q, 0)
  | fuel + 1, v :: q, vd =>
    let step := visit vd v
    let r := visitParallel visit fuel (q ++ step.2) step.1
    (r.1, r.2.1, r.2.2 + 1)

/-- `Search::seedInvalidArrivals`: re-seed every vertex of
`invalid_arrivals_` (updating its data and enqueueing work for it), then
clear the set. -/
def seedInvalidArrivals {α : Type} (seedVertex : α → Nat → α × List Nat)
    (st : SearchRunState α) : SearchRunState α :=
  let seeded := st.invalid.foldl
    (fun acc v =>
      let r := seedVertex acc.1 v
      (r.1, acc.2 ++ r.2))
    (st.vdata, ([] : List Nat))
  { st with vdata := seeded.1, queue := st.queue ++ seeded.2, invalid := [] }

/-- `Search::findArrivals(level)`: `findArrivals1` (seed the initial
arrivals only on the first run — `arrivals_seeded_` — then seed the
invalidated arrivals) followed by the parallel BFS drain of the worklist;
returns the new state and the number of vertices visited. -/
def findArrivals {α : Type} (seeds : List Nat)
    (seedVertex visit : α → Nat → α × List Nat) (fuel : Nat)
    (st : SearchRunState α) : SearchRunState α × Nat :=
  let st1 := if st.seeded then st
    else { st with queue := seeds, seeded := true }
  let st2 := seedInvalidArrivals seedVertex st1
  let r := visitParallel visit fuel st2.queue st2.vdata
  ({ st2 with vdata := r.1, queue := r.2.1 }, r.2.2)

/-- C8: running `Search::findArrivals` a second time immediately after a
completed run, with no intervening invalidation — the state is seeded, the
worklist was fully drained and `invalid_arrivals_` is empty — is a no-op:
the returned state is identical (no vertex's tag group or arrival data
changes) and zero vertices are visited, so `Search::arrivalsChanged` holds
at no visited vertex.  Every `findArrivals` run itself ends seeded with an
empty invalid set, whatever state it starts from. -/
theorem claim8_findArrivals_rerun_noop {α : Type} (seeds : List Nat)
    (seedVertex visit : α → Nat → α × List Nat) (fuel : Nat)
    (st : SearchRunState α) (hseed : st.seeded = true)
    (hq : st.queue = []) (hinv : st.invalid = []) :
    findArrivals seeds seedVertex visit fuel st = (st, 0)
    ∧ ∀ st0 : SearchRunState α,
        (findArrivals seeds seedVertex visit fuel st0).1.invalid = []
        ∧ (findArrivals seeds seedVertex visit fuel st0).1.seeded = true := by
  constructor
  · obtain ⟨sd, q, inv, vd⟩ := st
    simp only at hseed hq hinv
    subst hseed
    subst hq
    subst hinv
    simp [findArrivals, seedInvalidArrivals, visitParallel]
  · intro st0
    constructor
    · simp [findArrivals, seedInvalidArrivals]
    · by_cases h0 : st0.seeded = true
      · simp [findArrivals, seedInvalidArrivals, h0]
      · simp [findArrivals, seedInvalidArrivals, h0]

/-- Witness for C8 at a concrete state: a seeded, fully drained search
state is returned unchanged with zero visits. -/
theorem claim8_findArrivals_rerun_noop_witness :
    findArrivals [1, 2] (fun vd v => (vd + v, [v])) (fun vd v => (vd + v, []))
        5 ({ seeded := true, queue := [], invalid := [], vdata := (0 : Nat) })
      = ({ seeded := true, queue := [], invalid := [], vdata := (0 : Nat) }, 0)
    ∧ ∀ st0 : SearchRunState Nat,
        (findArrivals [1, 2] (fun vd v => (vd + v, [v]))
          (fun vd v => (vd + v, [])) 5 st0).1.invalid = []
        ∧ (findArrivals [1, 2] (fun vd v => (vd + v, [v]))
          (fun vd v => (vd + v, [])) 5 st0).1.seeded = true :=
  claim8_findArrivals_rerun_noop [1, 2] (fun vd v => (vd + v, [v]))
    (fun vd v => (vd + v, [])) 5
    { seeded := true, queue := [], invalid := [], vdata := (0 : Nat) }
    rfl rfl rfl
